import Mathlib

/-!
# Verification of the zero-merkle-tree core

Shallow embedding of the repository's Merkle-tree core:
zero-hash precomputation (`computeZeroHashes`), the sparse tree
(`NodeStore`, `ZeroMerkleTree.setLeaf`), the append-only tree
(`AppendOnlyMerkleTree.appendLeaf`), and proof verification
(`computeMerkleRootFromProof`, `verifyMerkleProof`,
`verifyDeltaMerkleProof`).

Digests (`MerkleNodeValue`, 64-char lowercase hex strings in the source)
are modelled as natural numbers (a hex string denotes its byte value);
the all-zero digest "00...0" is `zeroDigest = 0`.  The hash primitive
(SHA-256 over the decoded byte pair in the source) is an external
collaborator of the core, required only to be a deterministic function
of the two child digests; every development below is parametric in an
arbitrary `hash : MerkleNodeValue → MerkleNodeValue → MerkleNodeValue`.
Concrete evaluations instantiate `hash` with the executable `hWit`.

JavaScript index arithmetic: the source applies `% 2 === 0` and
`Math.floor(x / m)` to `number` indices, which can be `-1` (the
append-only tree's sentinel).  JS `Math.floor(x / m)` on integers is
flooring division, `Int.fdiv`.  JS `x % 2 === 0` tests evenness; JS `%`
takes the dividend's sign while Lean's `Int.emod` is nonnegative, but
the two agree on whether the result is zero, so evenness tests
use `% 2 = 0` with Lean's `%`.
-/

abbrev MerkleNodeValue := Nat

/-- The canonical empty-leaf digest, the 64-char all-zero hex string
"0000000000000000000000000000000000000000000000000000000000000000". -/
def zeroDigest : MerkleNodeValue := 0

/-- `IMerkleProof` from the source: a single-value authentication path. -/
structure IMerkleProof where
  root : MerkleNodeValue
  siblings : List MerkleNodeValue
  index : Int
  value : MerkleNodeValue
deriving Repr, DecidableEq

/-- `IDeltaMerkleProof` from the source: certificate that one leaf changed. -/
structure IDeltaMerkleProof where
  index : Int
  siblings : List MerkleNodeValue
  oldRoot : MerkleNodeValue
  oldValue : MerkleNodeValue
  newRoot : MerkleNodeValue
  newValue : MerkleNodeValue
deriving Repr, DecidableEq

instance : Inhabited IDeltaMerkleProof :=
  ⟨{ index := 0, siblings := [], oldRoot := 0, oldValue := 0, newRoot := 0, newValue := 0 }⟩

section Core

variable (hash : MerkleNodeValue → MerkleNodeValue → MerkleNodeValue)

/-- The loop of `computeZeroHashes`: starting from `currentZeroHash`, the
remaining `n` iterations push `hash(cur, cur)` repeatedly; the list starts
with the current value. -/
def computeZeroHashesAux : MerkleNodeValue → Nat → List MerkleNodeValue
  | currentZeroHash, 0 => [currentZeroHash]
  | currentZeroHash, n + 1 =>
      currentZeroHash :: computeZeroHashesAux (hash currentZeroHash currentZeroHash) n

/-- `computeZeroHashes(height)` from the source: `Z[0]` is the all-zero
digest and `Z[i] = hash(Z[i-1], Z[i-1])` for `1 ≤ i ≤ height`. -/
def computeZeroHashes (height : Nat) : List MerkleNodeValue :=
  computeZeroHashesAux hash zeroDigest height

/-- The `i`-th zero hash, as a closed recurrence (specification helper). -/
def zeroHash : Nat → MerkleNodeValue
  | 0 => zeroDigest
  | i + 1 => hash (zeroHash i) (zeroHash i)

end Core

/-- `NodeStore` from the source: a sparse map `(level, index) → value`
(a JS object keyed by the string `level+"_"+index`, here a function to
`Option`), together with the tree height and the precomputed zero
hashes used as defaults. -/
structure NodeStore where
  nodes : Nat × Int → Option MerkleNodeValue
  height : Nat
  zeroHashes : List MerkleNodeValue

/-- `NodeStore.contains` from the source. -/
def NodeStore.contains (store : NodeStore) (level : Nat) (index : Int) : Bool :=
  (store.nodes (level, index)).isSome

/-- `NodeStore.set` from the source: unconditional overwrite. -/
def NodeStore.set (store : NodeStore) (level : Nat) (index : Int)
    (value : MerkleNodeValue) : NodeStore :=
  { store with nodes := fun k => if k = (level, index) then some value else store.nodes k }

/-- `NodeStore.get` from the source: the stored value if present, else the
zero hash `zeroHashes[height - level]` for the node's level (all
reachable calls have `level ≤ height`). -/
def NodeStore.get (store : NodeStore) (level : Nat) (index : Int) : MerkleNodeValue :=
  match store.nodes (level, index) with
  | some v => v
  | none => store.zeroHashes.getD (store.height - level) zeroDigest

/-- `ZeroMerkleTree` from the source: a height and a sparse node store. -/
structure ZeroMerkleTree where
  height : Nat
  nodeStore : NodeStore

section Core2

variable (hash : MerkleNodeValue → MerkleNodeValue → MerkleNodeValue)

/-- The `ZeroMerkleTree` constructor: empty store over fresh zero hashes. -/
def ZeroMerkleTree.new (height : Nat) : ZeroMerkleTree :=
  { height := height,
    nodeStore :=
      { nodes := fun _ => none, height := height,
        zeroHashes := computeZeroHashes hash height } }

/-- The `for (level = height; level > 0; level--)` loop of
`ZeroMerkleTree.setLeaf`.  The first argument is the store being mutated,
the `Nat` argument is the current level (which also counts the remaining
iterations, since the loop stops after level 1).  At each level the
current node is written, then the sibling is read (from the store just
written, at the adjacent index) and pushed, the value is folded by the
even/odd rule, and the index moves to the parent `Math.floor(i/2)`.
Returns the final store, the siblings pushed (bottom-up), and the folded
value that the caller writes at the root. -/
def ZeroMerkleTree.setLeafLoop :
    NodeStore → Nat → Int → MerkleNodeValue →
      NodeStore × List MerkleNodeValue × MerkleNodeValue
  | store, 0, _, currentValue => (store, [], currentValue)
  | store, level + 1, currentIndex, currentValue =>
      let store1 := store.set (level + 1) currentIndex currentValue
      if currentIndex % 2 = 0 then
        let rightSibling := store1.get (level + 1) (currentIndex + 1)
        let r := ZeroMerkleTree.setLeafLoop store1 level (Int.fdiv currentIndex 2)
          (hash currentValue rightSibling)
        (r.1, rightSibling :: r.2.1, r.2.2)
      else
        let leftSibling := store1.get (level + 1) (currentIndex - 1)
        let r := ZeroMerkleTree.setLeafLoop store1 level (Int.fdiv currentIndex 2)
          (hash leftSibling currentValue)
        (r.1, leftSibling :: r.2.1, r.2.2)

/-- `ZeroMerkleTree.setLeaf` from the source: capture `oldRoot`/`oldValue`,
walk the leaf's path to level 1 writing nodes and collecting siblings,
write the folded value at the root `(0,0)`, and return the updated tree
with the delta proof. -/
def ZeroMerkleTree.setLeaf (t : ZeroMerkleTree) (index : Int)
    (value : MerkleNodeValue) : ZeroMerkleTree × IDeltaMerkleProof :=
  let oldRoot := t.nodeStore.get 0 0
  let oldValue := t.nodeStore.get t.height index
  let r := ZeroMerkleTree.setLeafLoop hash t.nodeStore t.height index value
  let store2 := r.1.set 0 0 r.2.2
  ({ t with nodeStore := store2 },
   { index := index, siblings := r.2.1, oldRoot := oldRoot, oldValue := oldValue,
     newRoot := r.2.2, newValue := value })

/-- `ZeroMerkleTree.getRoot` from the source. -/
def ZeroMerkleTree.getRoot (t : ZeroMerkleTree) : MerkleNodeValue :=
  t.nodeStore.get 0 0

/-- `computeMerklePathFromProof` from the source: fold the value up using
the siblings, keeping every intermediate value, starting with the leaf
value itself (`merklePath` starts as `[value]`). -/
def computeMerklePathFromProof :
    List MerkleNodeValue → Int → MerkleNodeValue → List MerkleNodeValue
  | [], _, value => [value]
  | s :: rest, index, value =>
      value ::
        computeMerklePathFromProof rest (Int.fdiv index 2)
          (if index % 2 = 0 then hash value s else hash s value)

/-- `computeMerkleRootFromProof` from the source: the same fold, keeping
only the final value. -/
def computeMerkleRootFromProof :
    List MerkleNodeValue → Int → MerkleNodeValue → MerkleNodeValue
  | [], _, value => value
  | s :: rest, index, value =>
      computeMerkleRootFromProof rest (Int.fdiv index 2)
        (if index % 2 = 0 then hash value s else hash s value)

/-- `AppendOnlyMerkleTree` from the source: height, the last appended
leaf's proof (the tree's entire mutable state) and the zero hashes. -/
structure AppendOnlyMerkleTree where
  height : Nat
  lastProof : IMerkleProof
  zeroHashes : List MerkleNodeValue

/-- The `AppendOnlyMerkleTree` constructor: a dummy proof of all zero
hashes with sentinel index `-1`. -/
def AppendOnlyMerkleTree.new (height : Nat) : AppendOnlyMerkleTree :=
  let zeroHashes := computeZeroHashes hash height
  { height := height,
    zeroHashes := zeroHashes,
    lastProof :=
      { root := zeroHashes.getD height zeroDigest,
        siblings := zeroHashes.take height,
        index := -1,
        value := zeroHashes.getD height zeroDigest } }

/-- The sibling-derivation loop of `appendLeaf` (the `for level` loop of
the source, a pure map over levels since `multiplier = 2^level` and each
iteration pushes exactly one value): reconstruct the previous leaf's
merkle path from `lastProof`, then per level reuse the old sibling when
the path node index is unchanged, else take the zero hash (new ancestor
is a left child, sibling subtree still empty) or the previous path node
(new ancestor is a right child). -/
def AppendOnlyMerkleTree.appendSiblings (t : AppendOnlyMerkleTree) :
    List MerkleNodeValue :=
  let oldMerklePath :=
    computeMerklePathFromProof hash t.lastProof.siblings t.lastProof.index t.lastProof.value
  let prevIndex := t.lastProof.index
  let newIndex := prevIndex + 1
  let oldSiblings := t.lastProof.siblings
  (List.range t.height).map (fun level =>
    let multiplier : Int := 2 ^ level
    let prevLevelIndex := Int.fdiv prevIndex multiplier
    let newLevelIndex := Int.fdiv newIndex multiplier
    if newLevelIndex = prevLevelIndex then
      oldSiblings.getD level zeroDigest
    else if newLevelIndex % 2 = 0 then
      t.zeroHashes.getD level zeroDigest
    else
      oldMerklePath.getD level zeroDigest)

/-- `AppendOnlyMerkleTree.appendLeaf` from the source: derive the new
leaf's siblings by the reuse rule, fold the new root, update `lastProof`
and return the delta proof (with `oldValue` always the all-zero digest). -/
def AppendOnlyMerkleTree.appendLeaf (t : AppendOnlyMerkleTree)
    (leafValue : MerkleNodeValue) : AppendOnlyMerkleTree × IDeltaMerkleProof :=
  let oldRoot := t.lastProof.root
  let oldValue := zeroDigest
  let newIndex := t.lastProof.index + 1
  let siblings := t.appendSiblings hash
  let newRoot := computeMerkleRootFromProof hash siblings newIndex leafValue
  ({ t with lastProof :=
      { root := newRoot, siblings := siblings, index := newIndex, value := leafValue } },
   { index := newIndex, siblings := siblings, oldRoot := oldRoot, oldValue := oldValue,
     newRoot := newRoot, newValue := leafValue })

/-- `verifyMerkleProof` from the source. -/
def verifyMerkleProof (proof : IMerkleProof) : Bool :=
  proof.root == computeMerkleRootFromProof hash proof.siblings proof.index proof.value

/-- `verifyDeltaMerkleProof` from the source: split into the old and new
single-value proofs sharing siblings and index, verify both. -/
def verifyDeltaMerkleProof (deltaMerkleProof : IDeltaMerkleProof) : Bool :=
  let oldProof : IMerkleProof :=
    { siblings := deltaMerkleProof.siblings,
      index := deltaMerkleProof.index,
      root := deltaMerkleProof.oldRoot,
      value := deltaMerkleProof.oldValue }
  let newProof : IMerkleProof :=
    { siblings := deltaMerkleProof.siblings,
      index := deltaMerkleProof.index,
      root := deltaMerkleProof.newRoot,
      value := deltaMerkleProof.newValue }
  verifyMerkleProof hash oldProof && verifyMerkleProof hash newProof

/-- Run a sequence of `setLeaf` calls in order, collecting the returned
delta proofs (as the drivers in the source do with `map`). -/
def setLeafSeq (t : ZeroMerkleTree) :
    List (Int × MerkleNodeValue) → ZeroMerkleTree × List IDeltaMerkleProof
  | [] => (t, [])
  | (i, v) :: ops =>
      let r := t.setLeaf hash i v
      let rest := setLeafSeq r.1 ops
      (rest.1, r.2 :: rest.2)

/-- Run a sequence of `appendLeaf` calls in order, collecting the proofs. -/
def appendSeq (t : AppendOnlyMerkleTree) :
    List MerkleNodeValue → AppendOnlyMerkleTree × List IDeltaMerkleProof
  | [] => (t, [])
  | v :: vs =>
      let r := t.appendLeaf hash v
      let rest := appendSeq r.1 vs
      (rest.1, r.2 :: rest.2)

/-- The `setLeaf` operations `(n, v_0), (n+1, v_1), …` used when filling a
sparse tree left to right. -/
def enumFrom : Nat → List MerkleNodeValue → List (Int × MerkleNodeValue)
  | _, [] => []
  | n, v :: vs => ((n : Int), v) :: enumFrom (n + 1) vs

end Core2

section Analysis

variable (hash : MerkleNodeValue → MerkleNodeValue → MerkleNodeValue)

/-- The index of a node's ancestor `k` levels above it: `Math.floor(i/2)`
iterated `k` times (equivalently `Math.floor(i / 2^k)`). -/
def ancestorIndex : Int → Nat → Int
  | idx, 0 => idx
  | idx, k + 1 => ancestorIndex (Int.fdiv idx 2) k

/-- The sibling values along a leaf path as stored in a `NodeStore`:
`storeSiblings s k idx` lists, bottom-up, the sibling of the path node at
levels `k, k-1, …, 1`, where the path starts at `(k, idx)`. -/
def storeSiblings (s : NodeStore) : Nat → Int → List MerkleNodeValue
  | 0, _ => []
  | k + 1, idx =>
      (if idx % 2 = 0 then s.get (k + 1) (idx + 1) else s.get (k + 1) (idx - 1)) ::
        storeSiblings s k (Int.fdiv idx 2)

/-- A store is consistent when every node above the leaf level is the hash
of its two children (with the zero-hash defaults standing in for absent
entries). -/
def NodeStore.Consistent (s : NodeStore) : Prop :=
  ∀ level : Nat, level < s.height → ∀ j : Int,
    s.get level j = hash (s.get (level + 1) (2 * j)) (s.get (level + 1) (2 * j + 1))

/-- A `ZeroMerkleTree` whose store metadata matches its height, as
produced by the constructor. -/
def ZeroMerkleTree.WF (t : ZeroMerkleTree) : Prop :=
  t.nodeStore.height = t.height ∧
    t.nodeStore.zeroHashes = computeZeroHashes hash t.height

end Analysis

/-- Root chaining predicate: each proof's `oldRoot` is the current root
and its `newRoot` becomes the next current root. -/
def Chained : MerkleNodeValue → List IDeltaMerkleProof → Prop
  | _, [] => True
  | r, p :: ps => p.oldRoot = r ∧ Chained p.newRoot ps

/-- Simulation invariant: after `n` appends of `v_0 … v_(n-1)` into an
`AppendOnlyMerkleTree` and the corresponding `setLeaf(i, v_i)` calls into
a `ZeroMerkleTree`, the append-only tree's `lastProof` mirrors the
sparse store: same root, and its siblings/value are the stored values
along leaf `n-1`'s path; the sparse store holds only nodes on the paths
of leaves `< n`. -/
structure SimInv (hash : MerkleNodeValue → MerkleNodeValue → MerkleNodeValue)
    (h n : Nat) (zt : ZeroMerkleTree) (ta : AppendOnlyMerkleTree) : Prop where
  zheight : zt.height = h
  zWF : zt.WF hash
  zcons : zt.nodeStore.Consistent hash
  zdom : ∀ (L : Nat) (j : Int), zt.nodeStore.nodes (L, j) ≠ none →
    L ≤ h ∧ 0 ≤ j ∧ j ≤ ancestorIndex ((n : Int) - 1) (h - L)
  aheight : ta.height = h
  azero : ta.zeroHashes = computeZeroHashes hash h
  aindex : ta.lastProof.index = (n : Int) - 1
  aroot : ta.lastProof.root = zt.nodeStore.get 0 0
  asib1 : 1 ≤ n → ta.lastProof.siblings = storeSiblings zt.nodeStore h ((n : Int) - 1)
  avalue1 : 1 ≤ n → ta.lastProof.value = zt.nodeStore.get h ((n : Int) - 1)

/-- A concrete (collision-prone but executable) stand-in for the external
hash primitive, used only to evaluate the development at concrete
inputs. -/
def hWit (a b : MerkleNodeValue) : MerkleNodeValue := 2 * (a + b) + a + 1

section BasicLemmas

variable (hash : MerkleNodeValue → MerkleNodeValue → MerkleNodeValue)

theorem computeZeroHashesAux_length (cur : MerkleNodeValue) (n : Nat) :
    (computeZeroHashesAux hash cur n).length = n + 1 := by
  induction n generalizing cur with
  | zero => rfl
  | succ n ih => simp [computeZeroHashesAux, ih]

theorem computeZeroHashes_length (h : Nat) :
    (computeZeroHashes hash h).length = h + 1 :=
  computeZeroHashesAux_length hash zeroDigest h

theorem computeZeroHashesAux_getD (d : MerkleNodeValue) :
    ∀ (k n : Nat) (cur : MerkleNodeValue), k ≤ n →
      (computeZeroHashesAux hash cur n).getD k d = (fun x => hash x x)^[k] cur := by
  intro k
  induction k with
  | zero =>
      intro n cur _
      cases n <;> rfl
  | succ k ih =>
      intro n cur hk
      cases n with
      | zero => omega
      | succ n =>
        simp only [computeZeroHashesAux, List.getD_cons_succ]
        rw [ih n (hash cur cur) (by omega), Function.iterate_succ_apply]

theorem zeroHash_eq_iterate (k : Nat) :
    zeroHash hash k = (fun x => hash x x)^[k] zeroDigest := by
  induction k with
  | zero => rfl
  | succ k ih => rw [zeroHash, ih, Function.iterate_succ_apply']

theorem computeZeroHashes_getD (d : MerkleNodeValue) {k h : Nat} (hk : k ≤ h) :
    (computeZeroHashes hash h).getD k d = zeroHash hash k := by
  rw [computeZeroHashes, computeZeroHashesAux_getD hash d k h zeroDigest hk,
    zeroHash_eq_iterate]

theorem NodeStore.get_set_self (s : NodeStore) (L : Nat) (i : Int)
    (v : MerkleNodeValue) : (s.set L i v).get L i = v := by
  simp [NodeStore.set, NodeStore.get]

theorem NodeStore.nodes_set (s : NodeStore) (L : Nat) (i : Int)
    (v : MerkleNodeValue) (k : Nat × Int) :
    (s.set L i v).nodes k = if k = (L, i) then some v else s.nodes k := rfl

theorem NodeStore.get_set_ne (s : NodeStore) {L L' : Nat} {i j : Int}
    (v : MerkleNodeValue) (hne : (L', j) ≠ (L, i)) :
    (s.set L i v).get L' j = s.get L' j := by
  simp [NodeStore.set, NodeStore.get, hne]

theorem NodeStore.height_set (s : NodeStore) (L : Nat) (i : Int)
    (v : MerkleNodeValue) : (s.set L i v).height = s.height := rfl

theorem NodeStore.zeroHashes_set (s : NodeStore) (L : Nat) (i : Int)
    (v : MerkleNodeValue) : (s.set L i v).zeroHashes = s.zeroHashes := rfl

theorem computeMerklePathFromProof_length (sibs : List MerkleNodeValue)
    (idx : Int) (v : MerkleNodeValue) :
    (computeMerklePathFromProof hash sibs idx v).length = sibs.length + 1 := by
  induction sibs generalizing idx v with
  | nil => rfl
  | cons s rest ih => simp [computeMerklePathFromProof, ih]

theorem computeMerkleRootFromProof_eq_getLast (sibs : List MerkleNodeValue)
    (idx : Int) (v d : MerkleNodeValue) :
    computeMerkleRootFromProof hash sibs idx v =
      (computeMerklePathFromProof hash sibs idx v).getD sibs.length d := by
  induction sibs generalizing idx v with
  | nil => rfl
  | cons s rest ih =>
      simp only [computeMerklePathFromProof, computeMerkleRootFromProof,
        List.length_cons, List.getD_cons_succ]
      exact ih _ _

theorem ancestorIndex_succ (idx : Int) (k : Nat) :
    ancestorIndex idx (k + 1) = Int.fdiv (ancestorIndex idx k) 2 := by
  induction k generalizing idx with
  | zero => rfl
  | succ k ih =>
      show ancestorIndex (Int.fdiv idx 2) (k + 1) = _
      rw [ih]
      rfl

theorem computeMerkleRootFromProof_concat (l : List MerkleNodeValue)
    (a : MerkleNodeValue) (idx : Int) (v : MerkleNodeValue) :
    computeMerkleRootFromProof hash (l ++ [a]) idx v =
      (if ancestorIndex idx l.length % 2 = 0 then
        hash (computeMerkleRootFromProof hash l idx v) a
      else
        hash a (computeMerkleRootFromProof hash l idx v)) := by
  induction l generalizing idx v with
  | nil => rfl
  | cons s rest ih =>
      show computeMerkleRootFromProof hash (rest ++ [a]) (Int.fdiv idx 2)
          (if idx % 2 = 0 then hash v s else hash s v) = _
      rw [ih]
      rfl

end BasicLemmas

section PathLemmas

variable (hash : MerkleNodeValue → MerkleNodeValue → MerkleNodeValue)

theorem Int.fdiv_two_eq (idx : Int) : Int.fdiv idx 2 = idx / 2 :=
  Int.fdiv_eq_ediv idx (by norm_num)

theorem ancestorIndex_natCast (m : Nat) :
    ∀ k : Nat, ancestorIndex (m : Int) k = ((m / 2 ^ k : Nat) : Int) := by
  intro k
  induction k generalizing m with
  | zero => simp [ancestorIndex]
  | succ k ih =>
      show ancestorIndex (Int.fdiv (m : Int) 2) k = _
      have h2 : Int.fdiv (m : Int) 2 = ((m / 2 : Nat) : Int) := by
        rw [Int.fdiv_two_eq]
        omega
      rw [h2, ih, Nat.div_div_eq_div_mul]
      congr 2
      rw [pow_succ']

theorem ancestorIndex_lt_pow_eq_zero {m : Nat} {k : Nat} (hm : m < 2 ^ k) :
    ancestorIndex (m : Int) k = 0 := by
  rw [ancestorIndex_natCast, Nat.div_eq_of_lt hm]
  rfl

theorem storeSiblings_length (s : NodeStore) :
    ∀ (k : Nat) (idx : Int), (storeSiblings s k idx).length = k := by
  intro k
  induction k with
  | zero => intro idx; rfl
  | succ k ih => intro idx; simp [storeSiblings, ih]

theorem storeSiblings_getD (s : NodeStore) (d : MerkleNodeValue) :
    ∀ (k : Nat) (idx : Int) (L : Nat), L < k →
      (storeSiblings s k idx).getD L d =
        (if ancestorIndex idx L % 2 = 0 then s.get (k - L) (ancestorIndex idx L + 1)
         else s.get (k - L) (ancestorIndex idx L - 1)) := by
  intro k
  induction k with
  | zero => omega
  | succ k ih =>
      intro idx L hL
      cases L with
      | zero => rfl
      | succ L =>
          show (storeSiblings s k (Int.fdiv idx 2)).getD L d = _
          rw [ih (Int.fdiv idx 2) L (by omega), Nat.succ_sub_succ]
          rfl

theorem storeSiblings_congr (s1 s2 : NodeStore) :
    ∀ (k : Nat) (idx : Int),
      (∀ (L : Nat) (j : Int), 1 ≤ L → L ≤ k → j ≠ ancestorIndex idx (k - L) →
        s1.get L j = s2.get L j) →
      storeSiblings s1 k idx = storeSiblings s2 k idx := by
  intro k
  induction k with
  | zero => intro idx _; rfl
  | succ k ih =>
      intro idx hagree
      show (if idx % 2 = 0 then s1.get (k + 1) (idx + 1) else s1.get (k + 1) (idx - 1)) ::
          storeSiblings s1 k (Int.fdiv idx 2) = _
      have hhead :
          (if idx % 2 = 0 then s1.get (k + 1) (idx + 1) else s1.get (k + 1) (idx - 1)) =
          (if idx % 2 = 0 then s2.get (k + 1) (idx + 1) else s2.get (k + 1) (idx - 1)) := by
        have h0 : (k + 1) - (k + 1) = 0 := by omega
        by_cases h2 : idx % 2 = 0
        · simp only [h2, if_pos]
          exact hagree (k + 1) (idx + 1) (by omega) (by omega) (by rw [h0]; show _ ≠ idx; omega)
        · simp only [h2, if_neg, ite_false]
          exact hagree (k + 1) (idx - 1) (by omega) (by omega) (by rw [h0]; show _ ≠ idx; omega)
      rw [hhead]
      have htail : storeSiblings s1 k (Int.fdiv idx 2) = storeSiblings s2 k (Int.fdiv idx 2) := by
        apply ih
        intro L j h1 hk2 hne
        apply hagree L j h1 (by omega)
        rw [show (k + 1) - L = (k - L) + 1 from by omega]
        show j ≠ ancestorIndex (Int.fdiv idx 2) (k - L)
        exact hne
      rw [htail]
      rfl

/-- One consistency step: at a consistent store, hashing a node at level
`k+1` with its even/odd sibling gives the parent at level `k`. -/
theorem consistent_step {s : NodeStore} (hs : NodeStore.Consistent hash s)
    {k : Nat} (hk : k < s.height) (idx : Int) :
    (if idx % 2 = 0 then hash (s.get (k + 1) idx) (s.get (k + 1) (idx + 1))
     else hash (s.get (k + 1) (idx - 1)) (s.get (k + 1) idx)) =
      s.get k (Int.fdiv idx 2) := by
  rw [Int.fdiv_two_eq]
  by_cases h2 : idx % 2 = 0
  · rw [if_pos h2, hs k hk (idx / 2)]
    have e1 : 2 * (idx / 2) = idx := by omega
    rw [e1]
  · rw [if_neg h2, hs k hk (idx / 2)]
    have e1 : 2 * (idx / 2) = idx - 1 := by omega
    rw [e1, show idx - 1 + 1 = idx from by omega]

/-- Folding a leaf of a consistent store up along its stored siblings
reaches the stored root-level ancestor. -/
theorem consistent_fold {s : NodeStore} (hs : NodeStore.Consistent hash s) :
    ∀ (k : Nat) (idx : Int), k ≤ s.height →
      computeMerkleRootFromProof hash (storeSiblings s k idx) idx (s.get k idx) =
        s.get 0 (ancestorIndex idx k) := by
  intro k
  induction k with
  | zero => intro idx _; rfl
  | succ k ih =>
      intro idx hk
      show computeMerkleRootFromProof hash (_ :: storeSiblings s k (Int.fdiv idx 2)) idx _ = _
      show computeMerkleRootFromProof hash (storeSiblings s k (Int.fdiv idx 2))
        (Int.fdiv idx 2) _ = _
      have hstep :
          (if idx % 2 = 0 then
            hash (s.get (k + 1) idx)
              (if idx % 2 = 0 then s.get (k + 1) (idx + 1) else s.get (k + 1) (idx - 1))
          else
            hash (if idx % 2 = 0 then s.get (k + 1) (idx + 1) else s.get (k + 1) (idx - 1))
              (s.get (k + 1) idx)) = s.get k (Int.fdiv idx 2) := by
        by_cases h2 : idx % 2 = 0
        · simp only [h2, if_pos]
          have := consistent_step hash hs (k := k) (by omega) idx
          simpa [h2] using this
        · simp only [h2, ite_false]
          have := consistent_step hash hs (k := k) (by omega) idx
          simpa [h2] using this
      rw [hstep, ih (Int.fdiv idx 2) (by omega)]
      rfl

/-- The merkle path of a leaf in a consistent store lists exactly the
stored values of its ancestors, bottom-up. -/
theorem consistent_path_vals {s : NodeStore} (hs : NodeStore.Consistent hash s)
    (d : MerkleNodeValue) :
    ∀ (k : Nat) (idx : Int) (L : Nat), k ≤ s.height → L ≤ k →
      (computeMerklePathFromProof hash (storeSiblings s k idx) idx
          (s.get k idx)).getD L d =
        s.get (k - L) (ancestorIndex idx L) := by
  intro k
  induction k with
  | zero =>
      intro idx L _ hL
      have h0 : L = 0 := by omega
      subst h0
      rfl
  | succ k ih =>
      intro idx L hk hL
      cases L with
      | zero => rfl
      | succ L =>
          show (computeMerklePathFromProof hash (storeSiblings s k (Int.fdiv idx 2))
            (Int.fdiv idx 2) _).getD L d = _
          have hstep :
              (if idx % 2 = 0 then
                hash (s.get (k + 1) idx)
                  (if idx % 2 = 0 then s.get (k + 1) (idx + 1) else s.get (k + 1) (idx - 1))
              else
                hash (if idx % 2 = 0 then s.get (k + 1) (idx + 1) else s.get (k + 1) (idx - 1))
                  (s.get (k + 1) idx)) = s.get k (Int.fdiv idx 2) := by
            by_cases h2 : idx % 2 = 0
            · simp only [h2, if_pos]
              have := consistent_step hash hs (k := k) (by omega) idx
              simpa [h2] using this
            · simp only [h2, ite_false]
              have := consistent_step hash hs (k := k) (by omega) idx
              simpa [h2] using this
          rw [hstep, ih (Int.fdiv idx 2) L (by omega) (by omega), Nat.succ_sub_succ]
          rfl

end PathLemmas

theorem pair_ne_of_fst {a c : Nat} (b d : Int) (h : a ≠ c) : (a, b) ≠ (c, d) := by
  intro hc
  exact h (congrArg Prod.fst hc)

theorem pair_ne_of_snd (a c : Nat) {b d : Int} (h : b ≠ d) : (a, b) ≠ (c, d) := by
  intro hc
  exact h (congrArg Prod.snd hc)

theorem storeSiblings_set_high (s : NodeStore) {L0 k : Nat} (i0 : Int)
    (v0 : MerkleNodeValue) (hk : k < L0) (idx : Int) :
    storeSiblings (s.set L0 i0 v0) k idx = storeSiblings s k idx := by
  apply storeSiblings_congr
  intro L j h1 hL _
  exact NodeStore.get_set_ne s v0 (pair_ne_of_fst j i0 (by omega))

section LoopLemmas

variable (hash : MerkleNodeValue → MerkleNodeValue → MerkleNodeValue)

theorem setLeafLoop_store_height :
    ∀ (n : Nat) (s : NodeStore) (idx : Int) (v : MerkleNodeValue),
      (ZeroMerkleTree.setLeafLoop hash s n idx v).1.height = s.height := by
  intro n
  induction n with
  | zero => intro s idx v; rfl
  | succ n ih =>
      intro s idx v
      by_cases h2 : idx % 2 = 0 <;>
        simp only [ZeroMerkleTree.setLeafLoop, h2, ite_true, ite_false, ih,
          NodeStore.height_set]

theorem setLeafLoop_store_zeroHashes :
    ∀ (n : Nat) (s : NodeStore) (idx : Int) (v : MerkleNodeValue),
      (ZeroMerkleTree.setLeafLoop hash s n idx v).1.zeroHashes = s.zeroHashes := by
  intro n
  induction n with
  | zero => intro s idx v; rfl
  | succ n ih =>
      intro s idx v
      by_cases h2 : idx % 2 = 0 <;>
        simp only [ZeroMerkleTree.setLeafLoop, h2, ite_true, ite_false, ih,
          NodeStore.zeroHashes_set]

/-- The siblings pushed by the `setLeaf` loop are exactly the sibling
values as they stood in the store before the call: each sibling is read
after a write at the same level but at the adjacent (different) index,
and all earlier writes were at higher levels. -/
theorem setLeafLoop_siblings :
    ∀ (n : Nat) (s : NodeStore) (idx : Int) (v : MerkleNodeValue),
      (ZeroMerkleTree.setLeafLoop hash s n idx v).2.1 = storeSiblings s n idx := by
  intro n
  induction n with
  | zero => intro s idx v; rfl
  | succ n ih =>
      intro s idx v
      by_cases h2 : idx % 2 = 0
      · simp only [ZeroMerkleTree.setLeafLoop, h2, ite_true]
        rw [ih, storeSiblings_set_high s idx v (by omega),
          NodeStore.get_set_ne s v (pair_ne_of_snd (n + 1) (n + 1) (by omega))]
        simp only [storeSiblings, h2, ite_true]
      · simp only [ZeroMerkleTree.setLeafLoop, h2, ite_false]
        rw [ih, storeSiblings_set_high s idx v (by omega),
          NodeStore.get_set_ne s v (pair_ne_of_snd (n + 1) (n + 1) (by omega))]
        simp only [storeSiblings, h2, ite_false]

/-- The value the `setLeaf` loop hands back for the root write is the
proof-fold of the leaf value along the pushed siblings. -/
theorem setLeafLoop_root :
    ∀ (n : Nat) (s : NodeStore) (idx : Int) (v : MerkleNodeValue),
      (ZeroMerkleTree.setLeafLoop hash s n idx v).2.2 =
        computeMerkleRootFromProof hash (storeSiblings s n idx) idx v := by
  intro n
  induction n with
  | zero => intro s idx v; rfl
  | succ n ih =>
      intro s idx v
      by_cases h2 : idx % 2 = 0
      · simp only [ZeroMerkleTree.setLeafLoop, h2, ite_true]
        rw [ih, storeSiblings_set_high s idx v (by omega),
          NodeStore.get_set_ne s v (pair_ne_of_snd (n + 1) (n + 1) (by omega))]
        simp only [storeSiblings, computeMerkleRootFromProof, h2, ite_true]
      · simp only [ZeroMerkleTree.setLeafLoop, h2, ite_false]
        rw [ih, storeSiblings_set_high s idx v (by omega),
          NodeStore.get_set_ne s v (pair_ne_of_snd (n + 1) (n + 1) (by omega))]
        simp only [storeSiblings, computeMerkleRootFromProof, h2, ite_false]

/-- Store characterization of the `setLeaf` loop: it writes exactly the
path nodes at levels `n … 1`, each holding the partial fold of the new
leaf value up to that level, and leaves every other entry untouched. -/
theorem setLeafLoop_nodes :
    ∀ (n : Nat) (s : NodeStore) (idx : Int) (v : MerkleNodeValue) (L : Nat) (j : Int),
      (ZeroMerkleTree.setLeafLoop hash s n idx v).1.nodes (L, j) =
        if 1 ≤ L ∧ L ≤ n ∧ j = ancestorIndex idx (n - L) then
          some (computeMerkleRootFromProof hash
            ((storeSiblings s n idx).take (n - L)) idx v)
        else s.nodes (L, j) := by
  intro n
  induction n with
  | zero =>
      intro s idx v L j
      have hfalse : ¬(1 ≤ L ∧ L ≤ 0 ∧ j = ancestorIndex idx (0 - L)) := by
        rintro ⟨h1, h0, _⟩
        omega
      rw [if_neg hfalse]
      rfl
  | succ n ih =>
      intro s idx v L j
      have key :
          ∀ w : MerkleNodeValue,
            w = (if idx % 2 = 0 then hash v (s.get (n + 1) (idx + 1))
              else hash (s.get (n + 1) (idx - 1)) v) →
            ((ZeroMerkleTree.setLeafLoop hash (s.set (n + 1) idx v) n (Int.fdiv idx 2)
                w).1.nodes (L, j) =
              if 1 ≤ L ∧ L ≤ n + 1 ∧ j = ancestorIndex idx (n + 1 - L) then
                some (computeMerkleRootFromProof hash
                  ((storeSiblings s (n + 1) idx).take (n + 1 - L)) idx v)
              else s.nodes (L, j)) := by
        intro w hw
        rw [ih]
        by_cases hL : 1 ≤ L ∧ L ≤ n ∧ j = ancestorIndex (Int.fdiv idx 2) (n - L)
        · rw [if_pos hL]
          have hcond : 1 ≤ L ∧ L ≤ n + 1 ∧ j = ancestorIndex idx (n + 1 - L) := by
            refine ⟨hL.1, by omega, ?_⟩
            rw [show n + 1 - L = (n - L) + 1 from by omega]
            exact hL.2.2
          rw [if_pos hcond]
          congr 1
          rw [storeSiblings_set_high s idx v (by omega)]
          rw [show n + 1 - L = (n - L) + 1 from by omega]
          have htake :
              (storeSiblings s (n + 1) idx).take ((n - L) + 1) =
              (if idx % 2 = 0 then s.get (n + 1) (idx + 1) else s.get (n + 1) (idx - 1)) ::
                (storeSiblings s n (Int.fdiv idx 2)).take (n - L) := by
            simp only [storeSiblings, List.take_succ_cons]
          rw [htake]
          by_cases h2 : idx % 2 = 0 <;>
            simp only [computeMerkleRootFromProof, h2, ite_true, ite_false, hw]
        · rw [if_neg hL]
          by_cases hL1 : L = n + 1
          · subst hL1
            rw [NodeStore.nodes_set]
            by_cases hj : j = idx
            · rw [if_pos (show ((n + 1 : Nat), j) = ((n + 1 : Nat), idx) by rw [hj]),
                if_pos (show 1 ≤ n + 1 ∧ n + 1 ≤ n + 1 ∧ j = ancestorIndex idx (n + 1 - (n + 1)) by
                  refine ⟨by omega, by omega, ?_⟩
                  rw [show n + 1 - (n + 1) = 0 from by omega]
                  exact hj),
                show n + 1 - (n + 1) = 0 from by omega]
              rfl
            · rw [if_neg (pair_ne_of_snd (n + 1) (n + 1) hj),
                if_neg (show ¬(1 ≤ n + 1 ∧ n + 1 ≤ n + 1 ∧ j = ancestorIndex idx (n + 1 - (n + 1))) by
                  rintro ⟨_, _, hc⟩
                  rw [show n + 1 - (n + 1) = 0 from by omega] at hc
                  exact hj hc)]
          · have hcond : ¬(1 ≤ L ∧ L ≤ n + 1 ∧ j = ancestorIndex idx (n + 1 - L)) := by
              rintro ⟨h1, hn, hc⟩
              apply hL
              refine ⟨h1, by omega, ?_⟩
              rw [show n + 1 - L = (n - L) + 1 from by omega] at hc
              exact hc
            rw [if_neg hcond, NodeStore.nodes_set,
              if_neg (pair_ne_of_fst j idx (by omega))]
      by_cases h2 : idx % 2 = 0
      · simp only [ZeroMerkleTree.setLeafLoop, h2, ite_true]
        rw [NodeStore.get_set_ne s v (pair_ne_of_snd (n + 1) (n + 1) (by omega))]
        exact key _ (by rw [if_pos h2])
      · simp only [ZeroMerkleTree.setLeafLoop, h2, ite_false]
        rw [NodeStore.get_set_ne s v (pair_ne_of_snd (n + 1) (n + 1) (by omega))]
        exact key _ (by rw [if_neg h2])

end LoopLemmas

theorem NodeStore.get_eq_of_nodes_some {s : NodeStore} {L : Nat} {j : Int}
    {v : MerkleNodeValue} (h : s.nodes (L, j) = some v) : s.get L j = v := by
  simp [NodeStore.get, h]

theorem NodeStore.get_eq_of_nodes_none {s : NodeStore} {L : Nat} {j : Int}
    (h : s.nodes (L, j) = none) :
    s.get L j = s.zeroHashes.getD (s.height - L) zeroDigest := by
  simp [NodeStore.get, h]

theorem take_succ_getD {α : Type} (d : α) :
    ∀ (l : List α) (n : Nat), n < l.length →
      l.take (n + 1) = l.take n ++ [l.getD n d] := by
  intro l
  induction l with
  | nil => intro n h; simp at h
  | cons a l ih =>
      intro n h
      cases n with
      | zero => simp
      | succ n =>
          simp only [List.take_succ_cons, List.getD_cons_succ]
          rw [ih n (by simpa using h)]
          rfl

section SetLeafLemmas

variable (hash : MerkleNodeValue → MerkleNodeValue → MerkleNodeValue)

/-- The delta proof returned by `setLeaf`, in closed form: the siblings
are the pre-call stored siblings of the path, `oldRoot`/`oldValue` are
the pre-call root and leaf, and `newRoot` is the fold of the new value
along those siblings. -/
theorem setLeaf_proof (t : ZeroMerkleTree) (idx : Int) (v : MerkleNodeValue) :
    (t.setLeaf hash idx v).2 =
      { index := idx,
        siblings := storeSiblings t.nodeStore t.height idx,
        oldRoot := t.nodeStore.get 0 0,
        oldValue := t.nodeStore.get t.height idx,
        newRoot := computeMerkleRootFromProof hash
          (storeSiblings t.nodeStore t.height idx) idx v,
        newValue := v } := by
  simp only [ZeroMerkleTree.setLeaf]
  rw [setLeafLoop_siblings, setLeafLoop_root]

theorem setLeaf_height (t : ZeroMerkleTree) (idx : Int) (v : MerkleNodeValue) :
    (t.setLeaf hash idx v).1.height = t.height := rfl

theorem setLeaf_store_height (t : ZeroMerkleTree) (idx : Int) (v : MerkleNodeValue) :
    (t.setLeaf hash idx v).1.nodeStore.height = t.nodeStore.height := by
  simp only [ZeroMerkleTree.setLeaf]
  rw [NodeStore.height_set, setLeafLoop_store_height]

theorem setLeaf_store_zeroHashes (t : ZeroMerkleTree) (idx : Int) (v : MerkleNodeValue) :
    (t.setLeaf hash idx v).1.nodeStore.zeroHashes = t.nodeStore.zeroHashes := by
  simp only [ZeroMerkleTree.setLeaf]
  rw [NodeStore.zeroHashes_set, setLeafLoop_store_zeroHashes]

/-- Store writes of a full `setLeaf` call: the root entry `(0,0)` gets
the new root, the path entries at levels `height … 1` get the partial
folds, and nothing else changes. -/
theorem setLeaf_store_nodes (t : ZeroMerkleTree) (idx : Int) (v : MerkleNodeValue)
    (L : Nat) (j : Int) :
    (t.setLeaf hash idx v).1.nodeStore.nodes (L, j) =
      if (L, j) = ((0 : Nat), (0 : Int)) then
        some (computeMerkleRootFromProof hash
          (storeSiblings t.nodeStore t.height idx) idx v)
      else if 1 ≤ L ∧ L ≤ t.height ∧ j = ancestorIndex idx (t.height - L) then
        some (computeMerkleRootFromProof hash
          ((storeSiblings t.nodeStore t.height idx).take (t.height - L)) idx v)
      else t.nodeStore.nodes (L, j) := by
  simp only [ZeroMerkleTree.setLeaf]
  rw [NodeStore.nodes_set]
  by_cases h0 : ((L : Nat), (j : Int)) = ((0 : Nat), (0 : Int))
  · rw [if_pos h0, if_pos h0, setLeafLoop_root]
  · rw [if_neg h0, if_neg h0]
    exact setLeafLoop_nodes hash t.height t.nodeStore idx v L j

/-- `get` characterization of the post-`setLeaf` store. -/
theorem setLeaf_get (t : ZeroMerkleTree) (idx : Int) (v : MerkleNodeValue)
    (L : Nat) (j : Int) :
    (t.setLeaf hash idx v).1.nodeStore.get L j =
      if (L, j) = ((0 : Nat), (0 : Int)) then
        computeMerkleRootFromProof hash (storeSiblings t.nodeStore t.height idx) idx v
      else if 1 ≤ L ∧ L ≤ t.height ∧ j = ancestorIndex idx (t.height - L) then
        computeMerkleRootFromProof hash
          ((storeSiblings t.nodeStore t.height idx).take (t.height - L)) idx v
      else t.nodeStore.get L j := by
  have hn := setLeaf_store_nodes hash t idx v L j
  by_cases h0 : ((L : Nat), (j : Int)) = ((0 : Nat), (0 : Int))
  · rw [if_pos h0] at hn ⊢
    exact NodeStore.get_eq_of_nodes_some hn
  · rw [if_neg h0] at hn ⊢
    by_cases hc : 1 ≤ L ∧ L ≤ t.height ∧ j = ancestorIndex idx (t.height - L)
    · rw [if_pos hc] at hn ⊢
      exact NodeStore.get_eq_of_nodes_some hn
    · rw [if_neg hc] at hn ⊢
      cases hv : t.nodeStore.nodes (L, j) with
      | some w =>
          rw [NodeStore.get_eq_of_nodes_some (hn.trans hv),
            NodeStore.get_eq_of_nodes_some hv]
      | none =>
          rw [NodeStore.get_eq_of_nodes_none (hn.trans hv),
            NodeStore.get_eq_of_nodes_none hv, setLeaf_store_height,
            setLeaf_store_zeroHashes]

/-- For an in-range index (level-0 ancestor 0), the root write and the
path writes merge into one uniform description. -/
theorem setLeaf_get_inrange (t : ZeroMerkleTree) (idx : Int) (v : MerkleNodeValue)
    (hanc : ancestorIndex idx t.height = 0) (L : Nat) (j : Int) :
    (t.setLeaf hash idx v).1.nodeStore.get L j =
      if L ≤ t.height ∧ j = ancestorIndex idx (t.height - L) then
        computeMerkleRootFromProof hash
          ((storeSiblings t.nodeStore t.height idx).take (t.height - L)) idx v
      else t.nodeStore.get L j := by
  rw [setLeaf_get]
  by_cases h0 : ((L : Nat), (j : Int)) = ((0 : Nat), (0 : Int))
  · rw [if_pos h0]
    have hL : L = 0 := congrArg Prod.fst h0
    have hj : j = 0 := congrArg Prod.snd h0
    have hcond : L ≤ t.height ∧ j = ancestorIndex idx (t.height - L) := by
      subst hL
      refine ⟨by omega, ?_⟩
      rw [show t.height - 0 = t.height from by omega, hanc]
      exact hj
    rw [if_pos hcond]
    subst hL
    rw [show t.height - 0 = t.height from by omega,
      List.take_of_length_le (by rw [storeSiblings_length])]
  · rw [if_neg h0]
    by_cases hc : 1 ≤ L ∧ L ≤ t.height ∧ j = ancestorIndex idx (t.height - L)
    · rw [if_pos hc, if_pos ⟨hc.2.1, hc.2.2⟩]
    · rw [if_neg hc, if_neg ?_]
      rintro ⟨hLh, hj⟩
      by_cases hL0 : L = 0
      · apply h0
        subst hL0
        rw [show t.height - 0 = t.height from by omega, hanc] at hj
        rw [hj]
      · exact hc ⟨by omega, hLh, hj⟩

end SetLeafLemmas

section ConsistencyLemmas

variable (hash : MerkleNodeValue → MerkleNodeValue → MerkleNodeValue)

theorem new_WF (h : Nat) : (ZeroMerkleTree.new hash h).WF hash :=
  ⟨rfl, rfl⟩

theorem new_nodes (h : Nat) (L : Nat) (j : Int) :
    (ZeroMerkleTree.new hash h).nodeStore.nodes (L, j) = none := rfl

theorem new_get (h : Nat) (L : Nat) (j : Int) (hL : L ≤ h) :
    (ZeroMerkleTree.new hash h).nodeStore.get L j = zeroHash hash (h - L) := by
  rw [NodeStore.get_eq_of_nodes_none (new_nodes hash h L j)]
  show (computeZeroHashes hash h).getD (h - L) zeroDigest = _
  exact computeZeroHashes_getD hash zeroDigest (by omega)

theorem new_consistent (h : Nat) :
    (ZeroMerkleTree.new hash h).nodeStore.Consistent hash := by
  intro L hL j
  have hLh : L < h := hL
  rw [new_get hash h L j (by omega), new_get hash h (L + 1) (2 * j) (by omega),
    new_get hash h (L + 1) (2 * j + 1) (by omega),
    show h - L = (h - (L + 1)) + 1 from by omega]
  rfl

theorem setLeaf_WF (t : ZeroMerkleTree) (hWFt : t.WF hash) (idx : Int)
    (v : MerkleNodeValue) : ((t.setLeaf hash idx v).1).WF hash := by
  refine ⟨?_, ?_⟩
  · rw [setLeaf_store_height, setLeaf_height]
    exact hWFt.1
  · rw [setLeaf_store_zeroHashes, setLeaf_height]
    exact hWFt.2

/-- `setLeaf` at an in-range index keeps the store consistent: each path
write is the hash of its two children (one the previous path write, the
other an untouched sibling), and non-path nodes keep consistent children. -/
theorem setLeaf_consistent (t : ZeroMerkleTree) (hWFt : t.WF hash)
    (hcons : t.nodeStore.Consistent hash) {m : Nat} (hm : m < 2 ^ t.height)
    (v : MerkleNodeValue) :
    ((t.setLeaf hash (m : Int) v).1).nodeStore.Consistent hash := by
  have hanc : ancestorIndex (m : Int) t.height = 0 := ancestorIndex_lt_pow_eq_zero hm
  intro L hL j
  have hLh : L < t.height := by
    rw [setLeaf_store_height, hWFt.1] at hL
    exact hL
  have hfd : ancestorIndex (m : Int) (t.height - L) =
      Int.fdiv (ancestorIndex (m : Int) (t.height - (L + 1))) 2 := by
    rw [show t.height - L = (t.height - (L + 1)) + 1 from by omega, ancestorIndex_succ]
  have hjp0 : Int.fdiv (ancestorIndex (m : Int) (t.height - (L + 1))) 2 =
      ancestorIndex (m : Int) (t.height - (L + 1)) / 2 := Int.fdiv_two_eq _
  by_cases hj : j = ancestorIndex (m : Int) (t.height - L)
  · have hjp : j = ancestorIndex (m : Int) (t.height - (L + 1)) / 2 := by
      rw [hj, hfd, hjp0]
    rw [setLeaf_get_inrange hash t (m : Int) v hanc L j, if_pos ⟨le_of_lt hLh, hj⟩]
    have hlen : t.height - (L + 1) <
        (storeSiblings t.nodeStore t.height (m : Int)).length := by
      rw [storeSiblings_length]
      omega
    have hlen2 :
        ((storeSiblings t.nodeStore t.height (m : Int)).take
          (t.height - (L + 1))).length = t.height - (L + 1) := by
      rw [List.length_take, storeSiblings_length]
      omega
    by_cases hp : ancestorIndex (m : Int) (t.height - (L + 1)) % 2 = 0
    · have hp2 : ancestorIndex (m : Int) (t.height - (L + 1)) = 2 * j := by omega
      rw [setLeaf_get_inrange hash t (m : Int) v hanc (L + 1) (2 * j),
        if_pos ⟨by omega, hp2.symm⟩,
        setLeaf_get_inrange hash t (m : Int) v hanc (L + 1) (2 * j + 1),
        if_neg (by rintro ⟨_, hc⟩; omega)]
      rw [show t.height - L = (t.height - (L + 1)) + 1 from by omega,
        take_succ_getD zeroDigest _ _ hlen, computeMerkleRootFromProof_concat,
        hlen2, if_pos hp]
      congr 1
      rw [storeSiblings_getD t.nodeStore zeroDigest t.height (m : Int)
          (t.height - (L + 1)) (by omega), if_pos hp,
        show t.height - (t.height - (L + 1)) = L + 1 from by omega,
        show ancestorIndex (m : Int) (t.height - (L + 1)) + 1 = 2 * j + 1 from by omega]
    · have hp2 : ancestorIndex (m : Int) (t.height - (L + 1)) = 2 * j + 1 := by omega
      rw [setLeaf_get_inrange hash t (m : Int) v hanc (L + 1) (2 * j),
        if_neg (by rintro ⟨_, hc⟩; omega),
        setLeaf_get_inrange hash t (m : Int) v hanc (L + 1) (2 * j + 1),
        if_pos ⟨by omega, hp2.symm⟩]
      rw [show t.height - L = (t.height - (L + 1)) + 1 from by omega,
        take_succ_getD zeroDigest _ _ hlen, computeMerkleRootFromProof_concat,
        hlen2, if_neg hp]
      congr 1
      rw [storeSiblings_getD t.nodeStore zeroDigest t.height (m : Int)
          (t.height - (L + 1)) (by omega), if_neg hp,
        show t.height - (t.height - (L + 1)) = L + 1 from by omega,
        show ancestorIndex (m : Int) (t.height - (L + 1)) - 1 = 2 * j from by omega]
  · rw [setLeaf_get_inrange hash t (m : Int) v hanc L j,
      if_neg (by rintro ⟨_, hc⟩; exact hj hc),
      setLeaf_get_inrange hash t (m : Int) v hanc (L + 1) (2 * j),
      if_neg (by
        rintro ⟨_, hc⟩
        apply hj
        rw [hfd, ← hc, Int.fdiv_two_eq]
        omega),
      setLeaf_get_inrange hash t (m : Int) v hanc (L + 1) (2 * j + 1),
      if_neg (by
        rintro ⟨_, hc⟩
        apply hj
        rw [hfd, ← hc, Int.fdiv_two_eq]
        omega)]
    apply hcons L (by rw [hWFt.1]; exact hLh) j

end ConsistencyLemmas

section IntArith

theorem int_ediv_ediv (a : Int) {b c : Int} (hb : 0 < b) (hc : 0 < c) :
    a / b / c = a / (b * c) := by
  have h1 : a % b + b * (a / b) = a := Int.emod_add_ediv a b
  have hr0 : 0 ≤ a % b := Int.emod_nonneg a (by omega)
  have hrb : a % b < b := Int.emod_lt_of_pos a hb
  have h2 : (a / b) % c + c * ((a / b) / c) = a / b := Int.emod_add_ediv (a / b) c
  have hq0 : 0 ≤ (a / b) % c := Int.emod_nonneg _ (by omega)
  have hqc : (a / b) % c < c := Int.emod_lt_of_pos _ hc
  have key : a = (a % b + b * ((a / b) % c)) + ((a / b) / c) * (b * c) := by
    linear_combination -h1 - b * h2
  have hR0 : 0 ≤ a % b + b * ((a / b) % c) := add_nonneg hr0 (mul_nonneg hb.le hq0)
  have hmul : b * ((a / b) % c) ≤ b * (c - 1) := mul_le_mul_of_nonneg_left (by omega) hb.le
  have hRlt : a % b + b * ((a / b) % c) < b * c := by linarith [hmul]
  conv_rhs => rw [key]
  rw [Int.add_mul_ediv_right _ _ (by positivity),
    Int.ediv_eq_zero_of_lt hR0 hRlt, zero_add]

theorem fdiv_fdiv_two_pow (idx : Int) (k : Nat) :
    Int.fdiv (Int.fdiv idx 2) ((2 : Int) ^ k) = Int.fdiv idx ((2 : Int) ^ (k + 1)) := by
  rw [Int.fdiv_eq_ediv _ (by norm_num), Int.fdiv_eq_ediv _ (by positivity),
    Int.fdiv_eq_ediv _ (by positivity), int_ediv_ediv idx (by norm_num) (by positivity),
    pow_succ']

theorem ancestorIndex_eq_fdiv_pow (k : Nat) :
    ∀ idx : Int, ancestorIndex idx k = Int.fdiv idx ((2 : Int) ^ k) := by
  induction k with
  | zero => intro idx; rw [pow_zero, Int.fdiv_one]; rfl
  | succ k ih =>
      intro idx
      show ancestorIndex (Int.fdiv idx 2) k = _
      rw [ih, fdiv_fdiv_two_pow]

theorem fdiv_pow_mono {a b : Int} (k : Nat) (hab : a ≤ b) :
    Int.fdiv a ((2 : Int) ^ k) ≤ Int.fdiv b ((2 : Int) ^ k) := by
  rw [Int.fdiv_eq_ediv _ (by positivity), Int.fdiv_eq_ediv _ (by positivity)]
  exact Int.ediv_le_ediv (by positivity) hab

theorem fdiv_pow_succ_le (n : Int) (k : Nat) :
    Int.fdiv (n + 1) ((2 : Int) ^ k) ≤ Int.fdiv n ((2 : Int) ^ k) + 1 := by
  rw [Int.fdiv_eq_ediv _ (by positivity), Int.fdiv_eq_ediv _ (by positivity)]
  have h1 : (n + 1 : Int) ≤ n + 1 * 2 ^ k := by
    have hpos : (0 : Int) < 2 ^ k := by positivity
    omega
  calc (n + 1) / (2 : Int) ^ k ≤ (n + 1 * 2 ^ k) / 2 ^ k :=
        Int.ediv_le_ediv (by positivity) h1
    _ = n / 2 ^ k + 1 := Int.add_mul_ediv_right _ _ (by positivity)

theorem neg_one_fdiv_pow (k : Nat) : Int.fdiv (-1) ((2 : Int) ^ k) = -1 := by
  rw [Int.fdiv_eq_ediv _ (by positivity)]
  have h2 : (0 : Int) ≤ 2 ^ k - 1 := by
    have hpos : (0 : Int) < 2 ^ k := by positivity
    omega
  have h3 : (2 : Int) ^ k - 1 < 2 ^ k := by omega
  have hsplit : ((2 : Int) ^ k - 1 + (-1) * 2 ^ k) / 2 ^ k =
      (2 ^ k - 1) / 2 ^ k + (-1) := Int.add_mul_ediv_right _ _ (by positivity)
  conv_lhs => rw [show (-1 : Int) = 2 ^ k - 1 + (-1) * 2 ^ k from by ring]
  rw [hsplit, Int.ediv_eq_zero_of_lt h2 h3]
  norm_num

end IntArith

section AppendUnfold

variable (hash : MerkleNodeValue → MerkleNodeValue → MerkleNodeValue)

theorem appendLeaf_fst (t : AppendOnlyMerkleTree) (v : MerkleNodeValue) :
    (t.appendLeaf hash v).1 =
      { height := t.height,
        zeroHashes := t.zeroHashes,
        lastProof :=
          { root := computeMerkleRootFromProof hash (t.appendSiblings hash)
              (t.lastProof.index + 1) v,
            siblings := t.appendSiblings hash,
            index := t.lastProof.index + 1,
            value := v } } := rfl

theorem appendLeaf_snd (t : AppendOnlyMerkleTree) (v : MerkleNodeValue) :
    (t.appendLeaf hash v).2 =
      { index := t.lastProof.index + 1,
        siblings := t.appendSiblings hash,
        oldRoot := t.lastProof.root,
        oldValue := zeroDigest,
        newRoot := computeMerkleRootFromProof hash (t.appendSiblings hash)
          (t.lastProof.index + 1) v,
        newValue := v } := rfl

theorem appendSiblings_length (t : AppendOnlyMerkleTree) :
    (t.appendSiblings hash).length = t.height := by
  rw [AppendOnlyMerkleTree.appendSiblings, List.length_map, List.length_range]

theorem appendSiblings_getElem (t : AppendOnlyMerkleTree) (L : Nat)
    (hL : L < (t.appendSiblings hash).length) :
    (t.appendSiblings hash)[L] =
      (if Int.fdiv (t.lastProof.index + 1) ((2 : Int) ^ L) =
          Int.fdiv t.lastProof.index ((2 : Int) ^ L) then
        t.lastProof.siblings.getD L zeroDigest
      else if Int.fdiv (t.lastProof.index + 1) ((2 : Int) ^ L) % 2 = 0 then
        t.zeroHashes.getD L zeroDigest
      else
        (computeMerklePathFromProof hash t.lastProof.siblings t.lastProof.index
          t.lastProof.value).getD L zeroDigest) := by
  simp only [AppendOnlyMerkleTree.appendSiblings] at hL ⊢
  rw [List.getElem_map, List.getElem_range]

end AppendUnfold

theorem Chained_getD :
    ∀ (ps : List IDeltaMerkleProof) (r : MerkleNodeValue), Chained r ps →
      ∀ i : Nat, i + 1 < ps.length →
        (ps.getD (i + 1) default).oldRoot = (ps.getD i default).newRoot := by
  intro ps
  induction ps with
  | nil => intro r _ i hi; simp at hi
  | cons p ps ih =>
      intro r hch i hi
      cases i with
      | zero =>
          cases ps with
          | nil => simp at hi
          | cons q ps2 => exact hch.2.1
      | succ i =>
          exact ih p.newRoot hch.2 i (by simpa using hi)

section VerifyLemmas

variable (hash : MerkleNodeValue → MerkleNodeValue → MerkleNodeValue)

/-- A single in-range `setLeaf` on a consistent well-formed tree returns
a delta proof that verifies. -/
theorem setLeaf_verifies (t : ZeroMerkleTree) (hWFt : t.WF hash)
    (hcons : t.nodeStore.Consistent hash) {m : Nat} (hm : m < 2 ^ t.height)
    (v : MerkleNodeValue) :
    verifyDeltaMerkleProof hash (t.setLeaf hash (m : Int) v).2 = true := by
  rw [setLeaf_proof]
  simp only [verifyDeltaMerkleProof, verifyMerkleProof, Bool.and_eq_true, beq_iff_eq]
  constructor
  · have hfold := consistent_fold hash hcons t.height (m : Int) (le_of_eq hWFt.1.symm)
    rw [hfold, ancestorIndex_lt_pow_eq_zero hm]
  · trivial

/-- After `setLeaf`, the stored root is the returned proof's `newRoot`. -/
theorem setLeaf_getRoot (t : ZeroMerkleTree) (idx : Int) (v : MerkleNodeValue) :
    (t.setLeaf hash idx v).1.getRoot = (t.setLeaf hash idx v).2.newRoot := by
  have h1 : (t.setLeaf hash idx v).2.newRoot =
      computeMerkleRootFromProof hash (storeSiblings t.nodeStore t.height idx) idx v := by
    rw [setLeaf_proof]
  show (t.setLeaf hash idx v).1.nodeStore.get 0 0 = _
  rw [setLeaf_get, if_pos rfl, h1]

/-- The sibling entries read by a `setLeaf` call are untouched by that
call's writes: reading the same path's siblings after the call gives the
same values as before. -/
theorem setLeaf_siblings_stable (t : ZeroMerkleTree) (idx : Int)
    (v : MerkleNodeValue) :
    storeSiblings (t.setLeaf hash idx v).1.nodeStore t.height idx =
      storeSiblings t.nodeStore t.height idx := by
  apply storeSiblings_congr
  intro L j h1 hL hne
  rw [setLeaf_get, if_neg (pair_ne_of_fst j 0 (by omega)),
    if_neg (by rintro ⟨_, _, hc⟩; exact hne hc)]

/-- Main sequence lemma for the sparse tree: any in-range `setLeaf`
sequence from a well-formed consistent tree yields verifying, chained
delta proofs, and preserves well-formedness, consistency and height. -/
theorem setLeafSeq_props :
    ∀ (ops : List (Int × MerkleNodeValue)) (t : ZeroMerkleTree),
      t.WF hash → t.nodeStore.Consistent hash →
      (∀ op ∈ ops, 0 ≤ op.1 ∧ op.1 < (2 : Int) ^ t.height) →
      (∀ p ∈ (setLeafSeq hash t ops).2, verifyDeltaMerkleProof hash p = true) ∧
        Chained t.getRoot (setLeafSeq hash t ops).2 ∧
        (setLeafSeq hash t ops).1.WF hash ∧
        (setLeafSeq hash t ops).1.nodeStore.Consistent hash ∧
        (setLeafSeq hash t ops).1.height = t.height := by
  intro ops
  induction ops with
  | nil =>
      intro t hWFt hcons _
      exact ⟨by intro p hp; simp [setLeafSeq] at hp, trivial, hWFt, hcons, rfl⟩
  | cons op ops ih =>
      intro t hWFt hcons hrange
      obtain ⟨i, v⟩ := op
      obtain ⟨h0, hlt⟩ := hrange (i, v) (by simp)
      obtain ⟨m, rfl⟩ : ∃ m : Nat, i = (m : Int) :=
        ⟨i.toNat, (Int.toNat_of_nonneg h0).symm⟩
      have hlt2 : ((m : Int)) < (2 : Int) ^ t.height := hlt
      have hm : m < 2 ^ t.height := by exact_mod_cast hlt2
      have hWF2 := setLeaf_WF hash t hWFt (m : Int) v
      have hcons2 := setLeaf_consistent hash t hWFt hcons hm v
      have hh2 : (t.setLeaf hash (m : Int) v).1.height = t.height :=
        setLeaf_height hash t (m : Int) v
      have ih2 := ih (t.setLeaf hash (m : Int) v).1 hWF2 hcons2 (by
        intro op hop
        have := hrange op (by simp [hop])
        rw [hh2]
        exact this)
      refine ⟨?_, ?_, ?_, ?_, ?_⟩
      · intro p hp
        simp only [setLeafSeq, List.mem_cons] at hp
        rcases hp with hp | hp
        · rw [hp]
          exact setLeaf_verifies hash t hWFt hcons hm v
        · exact ih2.1 p hp
      · show Chained t.getRoot
          ((t.setLeaf hash (m : Int) v).2 ::
            (setLeafSeq hash (t.setLeaf hash (m : Int) v).1 ops).2)
        refine ⟨?_, ?_⟩
        · rw [setLeaf_proof]
          rfl
        · rw [← setLeaf_getRoot]
          exact ih2.2.1
      · exact ih2.2.2.1
      · exact ih2.2.2.2.1
      · show (setLeafSeq hash (t.setLeaf hash (m : Int) v).1 ops).1.height = t.height
        rw [ih2.2.2.2.2, hh2]

end VerifyLemmas

section Simulation

variable {hash : MerkleNodeValue → MerkleNodeValue → MerkleNodeValue}

theorem SimInv_base (hash : MerkleNodeValue → MerkleNodeValue → MerkleNodeValue)
    (h : Nat) :
    SimInv hash h 0 (ZeroMerkleTree.new hash h) (AppendOnlyMerkleTree.new hash h) := by
  refine ⟨rfl, new_WF hash h, new_consistent hash h, ?_, rfl, rfl, ?_, ?_, ?_, ?_⟩
  · intro L j hsome
    exact absurd rfl hsome
  · show (-1 : Int) = ((0 : Nat) : Int) - 1
    decide
  · rw [new_get hash h 0 0 (Nat.zero_le h), Nat.sub_zero]
    show (computeZeroHashes hash h).getD h zeroDigest = zeroHash hash h
    exact computeZeroHashes_getD hash zeroDigest (le_refl h)
  · intro h1
    exact absurd h1 (by omega)
  · intro h1
    exact absurd h1 (by omega)

/-- The heart of the refinement: under the invariant, the append-only
sibling-reuse rule computes exactly the sparse store's siblings for the
next leaf index `n`. -/
theorem SimInv_siblings {h n : Nat} {zt : ZeroMerkleTree} {ta : AppendOnlyMerkleTree}
    (inv : SimInv hash h n zt ta) :
    ta.appendSiblings hash = storeSiblings zt.nodeStore h (n : Int) := by
  have hzsh : zt.nodeStore.height = h := by rw [inv.zWF.1, inv.zheight]
  have hzzh : zt.nodeStore.zeroHashes = computeZeroHashes hash h := by
    rw [inv.zWF.2, inv.zheight]
  apply List.ext_getElem
  · rw [appendSiblings_length, inv.aheight, storeSiblings_length]
  intro L hL1 hL2
  have hLh : L < h := by rw [appendSiblings_length, inv.aheight] at hL1; exact hL1
  rw [appendSiblings_getElem, ← List.getD_eq_getElem _ zeroDigest hL2,
    storeSiblings_getD _ zeroDigest h _ L hLh,
    ancestorIndex_eq_fdiv_pow L ((n : Int)), inv.aindex,
    show ((n : Int) - 1) + 1 = (n : Int) from by ring]
  by_cases heq : Int.fdiv (n : Int) ((2 : Int) ^ L) =
      Int.fdiv ((n : Int) - 1) ((2 : Int) ^ L)
  · rw [if_pos heq]
    have hn1 : 1 ≤ n := by
      by_contra h0
      have hn0 : n = 0 := by omega
      subst hn0
      rw [show ((0 : Nat) : Int) = 0 from rfl, Int.zero_fdiv,
        show ((0 : Int)) - 1 = -1 from by ring, neg_one_fdiv_pow] at heq
      omega
    rw [inv.asib1 hn1, storeSiblings_getD _ zeroDigest h _ L hLh,
      ancestorIndex_eq_fdiv_pow L ((n : Int) - 1), heq]
  · rw [if_neg heq]
    have hqlep : Int.fdiv ((n : Int) - 1) ((2 : Int) ^ L) ≤
        Int.fdiv (n : Int) ((2 : Int) ^ L) := fdiv_pow_mono L (by omega)
    have hplt : Int.fdiv (n : Int) ((2 : Int) ^ L) ≤
        Int.fdiv ((n : Int) - 1) ((2 : Int) ^ L) + 1 := by
      have hstep := fdiv_pow_succ_le ((n : Int) - 1) L
      rw [show ((n : Int) - 1) + 1 = (n : Int) from by ring] at hstep
      exact hstep
    have hpq : Int.fdiv (n : Int) ((2 : Int) ^ L) =
        Int.fdiv ((n : Int) - 1) ((2 : Int) ^ L) + 1 := by omega
    by_cases hpar : Int.fdiv (n : Int) ((2 : Int) ^ L) % 2 = 0
    · rw [if_pos hpar, if_pos hpar, inv.azero,
        computeZeroHashes_getD hash zeroDigest (le_of_lt hLh)]
      have habs : zt.nodeStore.nodes
          (h - L, Int.fdiv (n : Int) ((2 : Int) ^ L) + 1) = none := by
        by_contra hsome
        obtain ⟨_, _, hub⟩ := inv.zdom (h - L) _ hsome
        rw [show h - (h - L) = L from by omega,
          ancestorIndex_eq_fdiv_pow L ((n : Int) - 1)] at hub
        omega
      rw [NodeStore.get_eq_of_nodes_none habs, hzzh, hzsh,
        show h - (h - L) = L from by omega,
        computeZeroHashes_getD hash zeroDigest (le_of_lt hLh)]
    · rw [if_neg hpar, if_neg hpar]
      have hn1 : 1 ≤ n := by
        by_contra h0
        have hn0 : n = 0 := by omega
        subst hn0
        rw [show ((0 : Nat) : Int) = 0 from rfl, Int.zero_fdiv] at hpar
        omega
      rw [inv.asib1 hn1, inv.avalue1 hn1,
        consistent_path_vals hash inv.zcons zeroDigest h ((n : Int) - 1) L
          (le_of_eq hzsh.symm) (le_of_lt hLh),
        ancestorIndex_eq_fdiv_pow L ((n : Int) - 1),
        show Int.fdiv ((n : Int)) ((2 : Int) ^ L) - 1 =
          Int.fdiv ((n : Int) - 1) ((2 : Int) ^ L) from by omega]

/-- One simulation step: appending `v` returns exactly the delta proof
that `setLeaf(n, v)` returns, and the invariant advances to `n + 1`. -/
theorem SimInv_step {h n : Nat} {zt : ZeroMerkleTree} {ta : AppendOnlyMerkleTree}
    (inv : SimInv hash h n zt ta) (hn : n < 2 ^ h) (v : MerkleNodeValue) :
    (ta.appendLeaf hash v).2 = (zt.setLeaf hash (n : Int) v).2 ∧
    SimInv hash h (n + 1) (zt.setLeaf hash (n : Int) v).1 (ta.appendLeaf hash v).1 := by
  have hzsh : zt.nodeStore.height = h := by rw [inv.zWF.1, inv.zheight]
  have hzzh : zt.nodeStore.zeroHashes = computeZeroHashes hash h := by
    rw [inv.zWF.2, inv.zheight]
  have hsib := SimInv_siblings inv
  have hancn : ancestorIndex (n : Int) zt.height = 0 := by
    rw [inv.zheight]
    exact ancestorIndex_lt_pow_eq_zero hn
  have hidx1 : ta.lastProof.index + 1 = (n : Int) := by rw [inv.aindex]; ring
  have hcast : ((n + 1 : Nat) : Int) - 1 = (n : Int) := by push_cast; ring
  have holdval : zt.nodeStore.get zt.height (n : Int) = zeroDigest := by
    have habs : zt.nodeStore.nodes (zt.height, (n : Int)) = none := by
      by_contra hsome
      obtain ⟨_, _, hub⟩ := inv.zdom zt.height _ hsome
      rw [inv.zheight, show h - h = 0 from by omega] at hub
      have hub2 : ((n : Int)) ≤ (n : Int) - 1 := hub
      omega
    rw [NodeStore.get_eq_of_nodes_none habs, hzsh, hzzh, inv.zheight,
      show h - h = 0 from by omega]
    exact computeZeroHashes_getD hash zeroDigest (Nat.zero_le h)
  constructor
  · rw [appendLeaf_snd, setLeaf_proof]
    simp only [IDeltaMerkleProof.mk.injEq]
    refine ⟨hidx1, ?_, inv.aroot, holdval.symm, ?_, trivial⟩
    · rw [hsib, inv.zheight]
    · rw [hsib, hidx1, inv.zheight]
  · refine ⟨?_, setLeaf_WF hash zt inv.zWF _ v,
      setLeaf_consistent hash zt inv.zWF inv.zcons (by rw [inv.zheight]; exact hn) v,
      ?_, ?_, ?_, ?_, ?_, ?_, ?_⟩
    · rw [setLeaf_height, inv.zheight]
    · -- domain bound advances to n + 1
      intro L j hsome
      rw [setLeaf_store_nodes] at hsome
      rw [hcast]
      by_cases h0 : ((L : Nat), (j : Int)) = ((0 : Nat), (0 : Int))
      · have hL : L = 0 := congrArg Prod.fst h0
        have hj : j = 0 := congrArg Prod.snd h0
        subst hL
        refine ⟨Nat.zero_le h, by omega, ?_⟩
        rw [hj, show h - 0 = h from by omega, ancestorIndex_natCast]
        exact Int.natCast_nonneg _
      · rw [if_neg h0] at hsome
        by_cases hc : 1 ≤ L ∧ L ≤ zt.height ∧ j = ancestorIndex (n : Int) (zt.height - L)
        · obtain ⟨hc1, hc2, hc3⟩ := hc
          rw [inv.zheight] at hc2 hc3
          refine ⟨hc2, ?_, le_of_eq hc3⟩
          rw [hc3, ancestorIndex_natCast]
          exact Int.natCast_nonneg _
        · rw [if_neg hc] at hsome
          obtain ⟨hL, hj0, hub⟩ := inv.zdom L j hsome
          refine ⟨hL, hj0, le_trans hub ?_⟩
          rw [ancestorIndex_eq_fdiv_pow (h - L) ((n : Int) - 1),
            ancestorIndex_eq_fdiv_pow (h - L) ((n : Int))]
          exact fdiv_pow_mono (h - L) (by omega)
    · simp only [appendLeaf_fst]
      exact inv.aheight
    · simp only [appendLeaf_fst]
      exact inv.azero
    · simp only [appendLeaf_fst]
      rw [hidx1, hcast]
    · simp only [appendLeaf_fst]
      rw [setLeaf_get, if_pos rfl, hsib, hidx1, inv.zheight]
    · intro _
      simp only [appendLeaf_fst]
      have hstable := setLeaf_siblings_stable hash zt (n : Int) v
      rw [inv.zheight] at hstable
      rw [hcast, hstable, hsib]
    · intro _
      simp only [appendLeaf_fst]
      have hzh0 : zt.height - h = 0 := by rw [inv.zheight]; omega
      rw [hcast, setLeaf_get_inrange hash zt (n : Int) v hancn h (n : Int),
        if_pos ⟨le_of_eq inv.zheight.symm, by rw [hzh0]; rfl⟩, hzh0]
      rfl

/-- Running the whole sequence preserves the simulation: the two trees
return identical delta-proof lists. -/
theorem SimInv_seq (hash : MerkleNodeValue → MerkleNodeValue → MerkleNodeValue)
    (h : Nat) :
    ∀ (vs : List MerkleNodeValue) (n : Nat) (zt : ZeroMerkleTree)
      (ta : AppendOnlyMerkleTree),
      SimInv hash h n zt ta → n + vs.length ≤ 2 ^ h →
      (appendSeq hash ta vs).2 = (setLeafSeq hash zt (enumFrom n vs)).2 ∧
      SimInv hash h (n + vs.length) (setLeafSeq hash zt (enumFrom n vs)).1
        (appendSeq hash ta vs).1 := by
  intro vs
  induction vs with
  | nil =>
      intro n zt ta inv _
      exact ⟨rfl, by simpa using inv⟩
  | cons v vs ih =>
      intro n zt ta inv hbound
      have hlen : (v :: vs).length = vs.length + 1 := rfl
      have hn : n < 2 ^ h := by rw [hlen] at hbound; omega
      obtain ⟨hpeq, inv2⟩ := SimInv_step inv hn v
      obtain ⟨hrest, invrest⟩ := ih (n + 1) _ _ inv2 (by rw [hlen] at hbound; omega)
      constructor
      · show (ta.appendLeaf hash v).2 ::
            (appendSeq hash (ta.appendLeaf hash v).1 vs).2 =
          (zt.setLeaf hash (n : Int) v).2 ::
            (setLeafSeq hash (zt.setLeaf hash (n : Int) v).1 (enumFrom (n + 1) vs)).2
        rw [hpeq, hrest]
      · show SimInv hash h (n + (vs.length + 1))
          (setLeafSeq hash (zt.setLeaf hash (n : Int) v).1 (enumFrom (n + 1) vs)).1
          (appendSeq hash (ta.appendLeaf hash v).1 vs).1
        rw [show n + (vs.length + 1) = (n + 1) + vs.length from by omega]
        exact invrest

end Simulation

section AppendSeqLemmas

variable (hash : MerkleNodeValue → MerkleNodeValue → MerkleNodeValue)

/-- Every proof an append-only tree ever returns has `oldValue` equal to
the all-zero digest, by construction. -/
theorem appendSeq_oldValue :
    ∀ (vs : List MerkleNodeValue) (ta : AppendOnlyMerkleTree),
      ∀ p ∈ (appendSeq hash ta vs).2, p.oldValue = zeroDigest := by
  intro vs
  induction vs with
  | nil =>
      intro ta p hp
      simp [appendSeq] at hp
  | cons v vs ih =>
      intro ta p hp
      have hp2 : p ∈ (ta.appendLeaf hash v).2 ::
          (appendSeq hash (ta.appendLeaf hash v).1 vs).2 := hp
      rcases List.mem_cons.mp hp2 with hh | hh
      · rw [hh, appendLeaf_snd]
      · exact ih _ p hh

theorem appendSeq_index :
    ∀ (vs : List MerkleNodeValue) (ta : AppendOnlyMerkleTree),
      (appendSeq hash ta vs).1.lastProof.index =
        ta.lastProof.index + vs.length := by
  intro vs
  induction vs with
  | nil => intro ta; simp [appendSeq]
  | cons v vs ih =>
      intro ta
      show (appendSeq hash (ta.appendLeaf hash v).1 vs).1.lastProof.index = _
      rw [ih, appendLeaf_fst]
      show ta.lastProof.index + 1 + (vs.length : Int) = _
      simp only [List.length_cons]
      push_cast
      ring

/-- After at least one append, `lastProof` verifies by construction, its
root is the last returned proof's `newRoot`, and its value is the last
appended leaf. -/
theorem appendSeq_last :
    ∀ (vs : List MerkleNodeValue) (ta : AppendOnlyMerkleTree), vs ≠ [] →
      verifyMerkleProof hash (appendSeq hash ta vs).1.lastProof = true ∧
      (appendSeq hash ta vs).1.lastProof.root =
        ((appendSeq hash ta vs).2.getD (vs.length - 1) default).newRoot ∧
      (appendSeq hash ta vs).1.lastProof.value =
        vs.getD (vs.length - 1) zeroDigest := by
  intro vs
  induction vs with
  | nil => intro ta hne; exact absurd rfl hne
  | cons v vs ih =>
      intro ta _
      cases vs with
      | nil =>
          refine ⟨?_, ?_, ?_⟩
          · show verifyMerkleProof hash (ta.appendLeaf hash v).1.lastProof = true
            simp only [verifyMerkleProof, appendLeaf_fst]
            exact beq_self_eq_true _
          · show (ta.appendLeaf hash v).1.lastProof.root =
              (((ta.appendLeaf hash v).2 :: ([] : List IDeltaMerkleProof)).getD 0
                default).newRoot
            simp only [appendLeaf_fst, appendLeaf_snd, List.getD_cons_zero]
          · show (ta.appendLeaf hash v).1.lastProof.value = v
            simp only [appendLeaf_fst]
      | cons v2 vs2 =>
          have hne2 : (v2 :: vs2) ≠ ([] : List MerkleNodeValue) := by simp
          obtain ⟨ih1, ih2, ih3⟩ := ih (ta.appendLeaf hash v).1 hne2
          refine ⟨ih1, ?_, ?_⟩
          · show (appendSeq hash (ta.appendLeaf hash v).1 (v2 :: vs2)).1.lastProof.root =
              (((ta.appendLeaf hash v).2 ::
                (appendSeq hash (ta.appendLeaf hash v).1 (v2 :: vs2)).2).getD
                  ((v2 :: vs2).length) default).newRoot
            rw [show (v2 :: vs2).length = vs2.length + 1 from rfl, List.getD_cons_succ]
            exact ih2
          · show (appendSeq hash (ta.appendLeaf hash v).1 (v2 :: vs2)).1.lastProof.value =
              (v :: v2 :: vs2).getD ((v2 :: vs2).length) zeroDigest
            rw [show (v2 :: vs2).length = vs2.length + 1 from rfl, List.getD_cons_succ]
            exact ih3

end AppendSeqLemmas

theorem enumFrom_mem :
    ∀ (vs : List MerkleNodeValue) (k : Nat) (op : Int × MerkleNodeValue),
      op ∈ enumFrom k vs →
      ∃ m : Nat, op.1 = (m : Int) ∧ k ≤ m ∧ m < k + vs.length := by
  intro vs
  induction vs with
  | nil => intro k op hop; simp [enumFrom] at hop
  | cons v vs ih =>
      intro k op hop
      have hop2 : op ∈ ((k : Int), v) :: enumFrom (k + 1) vs := hop
      rcases List.mem_cons.mp hop2 with hh | hh
      · exact ⟨k, by rw [hh], le_refl k, by simp⟩
      · obtain ⟨m, h1, h2, h3⟩ := ih (k + 1) op hh
        exact ⟨m, h1, by omega, by simp only [List.length_cons]; omega⟩

/-- C1: for every height `h` and every sequence of `2^h` leaf values,
calling `appendLeaf` on an `AppendOnlyMerkleTree(h)` once per value in
order produces the same final root (the last returned proof's `newRoot`,
equal to `lastProof.root`) as a `ZeroMerkleTree(h)` on which
`setLeaf(i, v_i)` was called for every index `i` from `0` to `2^h - 1`
in order with the same values.  Parametric in the external hash
primitive. -/
theorem C1_append_refines_setLeaf
    (hash : MerkleNodeValue → MerkleNodeValue → MerkleNodeValue) (h : Nat)
    (vs : List MerkleNodeValue) (hlen : vs.length = 2 ^ h) :
    (appendSeq hash (AppendOnlyMerkleTree.new hash h) vs).1.lastProof.root =
      (setLeafSeq hash (ZeroMerkleTree.new hash h) (enumFrom 0 vs)).1.getRoot ∧
    ((appendSeq hash (AppendOnlyMerkleTree.new hash h) vs).2.getD (vs.length - 1)
        default).newRoot =
      (appendSeq hash (AppendOnlyMerkleTree.new hash h) vs).1.lastProof.root := by
  obtain ⟨hpeq, inv⟩ := SimInv_seq hash h vs 0 _ _ (SimInv_base hash h) (by omega)
  constructor
  · rw [inv.aroot]
    rfl
  · have hne : vs ≠ [] := by
      intro hcontra
      rw [hcontra] at hlen
      have hpos : 0 < 2 ^ h := by positivity
      simp at hlen
      omega
    exact ((appendSeq_last hash vs _ hne).2.1).symm

/-- C1 witness at `h = 1`, values `[4, 9]`, concrete hash `hWit`. -/
theorem C1_append_refines_setLeaf_witness :
    ([4, 9] : List MerkleNodeValue).length = 2 ^ 1 ∧
    (appendSeq hWit (AppendOnlyMerkleTree.new hWit 1) [4, 9]).1.lastProof.root =
      (setLeafSeq hWit (ZeroMerkleTree.new hWit 1) (enumFrom 0 [4, 9])).1.getRoot :=
  ⟨by decide, (C1_append_refines_setLeaf hWit 1 [4, 9] (by decide)).1⟩

/-- C2: for every height `h` and every finite sequence of
`setLeaf(index, value)` calls on a `ZeroMerkleTree(h)` with each index in
`[0, 2^h)`, every returned delta proof verifies, and each proof's
`oldRoot` equals the previous proof's `newRoot`. -/
theorem C2_setLeafSeq_verify_chain
    (hash : MerkleNodeValue → MerkleNodeValue → MerkleNodeValue) (h : Nat)
    (ops : List (Int × MerkleNodeValue))
    (hrange : ∀ op ∈ ops, 0 ≤ op.1 ∧ op.1 < (2 : Int) ^ h) :
    (∀ p ∈ (setLeafSeq hash (ZeroMerkleTree.new hash h) ops).2,
      verifyDeltaMerkleProof hash p = true) ∧
    (∀ i : Nat, i + 1 < (setLeafSeq hash (ZeroMerkleTree.new hash h) ops).2.length →
      ((setLeafSeq hash (ZeroMerkleTree.new hash h) ops).2.getD (i + 1)
          default).oldRoot =
        ((setLeafSeq hash (ZeroMerkleTree.new hash h) ops).2.getD i
          default).newRoot) := by
  have hp := setLeafSeq_props hash ops (ZeroMerkleTree.new hash h)
    (new_WF hash h) (new_consistent hash h) hrange
  exact ⟨hp.1, fun i hi => Chained_getD _ _ hp.2.1 i hi⟩

/-- C2 witness: three in-range `setLeaf` calls on a fresh height-1 tree
(indices 0, 1, 0), checking one verification and the adjacent-root chain. -/
theorem C2_setLeafSeq_verify_chain_witness :
    (∀ op ∈ [((0 : Int), (5 : MerkleNodeValue)), ((1 : Int), 6), ((0 : Int), 7)],
      0 ≤ op.1 ∧ op.1 < (2 : Int) ^ 1) ∧
    verifyDeltaMerkleProof hWit
      ((setLeafSeq hWit (ZeroMerkleTree.new hWit 1)
        [((0 : Int), 5), ((1 : Int), 6), ((0 : Int), 7)]).2.getD 1 default) = true ∧
    ((setLeafSeq hWit (ZeroMerkleTree.new hWit 1)
        [((0 : Int), 5), ((1 : Int), 6), ((0 : Int), 7)]).2.getD 1 default).oldRoot =
      ((setLeafSeq hWit (ZeroMerkleTree.new hWit 1)
        [((0 : Int), 5), ((1 : Int), 6), ((0 : Int), 7)]).2.getD 0 default).newRoot := by
  refine ⟨by decide, ?_, ?_⟩
  · exact (C2_setLeafSeq_verify_chain hWit 1
      [((0 : Int), 5), ((1 : Int), 6), ((0 : Int), 7)] (by decide)).1 _ (by decide)
  · exact (C2_setLeafSeq_verify_chain hWit 1
      [((0 : Int), 5), ((1 : Int), 6), ((0 : Int), 7)] (by decide)).2 0 (by decide)

/-- C3: for `n ≤ 2^h` appends on a fresh `AppendOnlyMerkleTree(h)`, every
returned delta proof verifies, its `oldValue` is the all-zero digest, and
each proof's `oldRoot` equals the previous proof's `newRoot`. -/
theorem C3_appendSeq_verify_chain
    (hash : MerkleNodeValue → MerkleNodeValue → MerkleNodeValue) (h : Nat)
    (vs : List MerkleNodeValue) (hlen : vs.length ≤ 2 ^ h) :
    (∀ p ∈ (appendSeq hash (AppendOnlyMerkleTree.new hash h) vs).2,
      verifyDeltaMerkleProof hash p = true ∧ p.oldValue = zeroDigest) ∧
    (∀ i : Nat,
      i + 1 < (appendSeq hash (AppendOnlyMerkleTree.new hash h) vs).2.length →
      ((appendSeq hash (AppendOnlyMerkleTree.new hash h) vs).2.getD (i + 1)
          default).oldRoot =
        ((appendSeq hash (AppendOnlyMerkleTree.new hash h) vs).2.getD i
          default).newRoot) := by
  obtain ⟨hpeq, _⟩ := SimInv_seq hash h vs 0 _ _ (SimInv_base hash h) (by omega)
  have hrange : ∀ op ∈ enumFrom 0 vs, 0 ≤ op.1 ∧ op.1 < (2 : Int) ^ h := by
    intro op hop
    obtain ⟨m, h1, _, h3⟩ := enumFrom_mem vs 0 op hop
    constructor
    · rw [h1]
      exact Int.natCast_nonneg m
    · rw [h1]
      have hm : m < 2 ^ h := by omega
      exact_mod_cast hm
  have hprops := setLeafSeq_props hash (enumFrom 0 vs) (ZeroMerkleTree.new hash h)
    (new_WF hash h) (new_consistent hash h) hrange
  constructor
  · intro p hp
    have hold := appendSeq_oldValue hash vs _ p hp
    have hp2 := hp
    rw [hpeq] at hp2
    exact ⟨hprops.1 p hp2, hold⟩
  · intro i hi
    rw [hpeq] at hi
    rw [hpeq]
    exact Chained_getD _ _ hprops.2.1 i hi

/-- C3 witness: two appends on a fresh height-1 tree. -/
theorem C3_appendSeq_verify_chain_witness :
    ([3, 8] : List MerkleNodeValue).length ≤ 2 ^ 1 ∧
    (verifyDeltaMerkleProof hWit
        ((appendSeq hWit (AppendOnlyMerkleTree.new hWit 1) [3, 8]).2.getD 0
          default) = true ∧
      ((appendSeq hWit (AppendOnlyMerkleTree.new hWit 1) [3, 8]).2.getD 0
          default).oldValue = zeroDigest) ∧
    ((appendSeq hWit (AppendOnlyMerkleTree.new hWit 1) [3, 8]).2.getD 1
        default).oldRoot =
      ((appendSeq hWit (AppendOnlyMerkleTree.new hWit 1) [3, 8]).2.getD 0
        default).newRoot := by
  refine ⟨by decide, ?_, ?_⟩
  · exact (C3_appendSeq_verify_chain hWit 1 [3, 8] (by decide)).1 _ (by decide)
  · exact (C3_appendSeq_verify_chain hWit 1 [3, 8] (by decide)).2 0 (by decide)

/-- C4: `computeZeroHashes(h)` has length `h+1`, starts at the all-zero
digest, satisfies `Z[i] = hash(Z[i-1], Z[i-1])`, and `Z[i]` is the root
of a fresh `ZeroMerkleTree(i)` (a tree with no leaves set). -/
theorem C4_computeZeroHashes_spec
    (hash : MerkleNodeValue → MerkleNodeValue → MerkleNodeValue) (h : Nat) :
    (computeZeroHashes hash h).length = h + 1 ∧
    (computeZeroHashes hash h).getD 0 zeroDigest = zeroDigest ∧
    (∀ i : Nat, 1 ≤ i → i ≤ h →
      (computeZeroHashes hash h).getD i zeroDigest =
        hash ((computeZeroHashes hash h).getD (i - 1) zeroDigest)
          ((computeZeroHashes hash h).getD (i - 1) zeroDigest)) ∧
    (∀ i : Nat, (ZeroMerkleTree.new hash i).getRoot =
      (computeZeroHashes hash i).getD i zeroDigest) := by
  refine ⟨computeZeroHashes_length hash h, ?_, ?_, ?_⟩
  · rw [computeZeroHashes_getD hash zeroDigest (Nat.zero_le h)]
    rfl
  · intro i h1 h2
    obtain ⟨k, rfl⟩ : ∃ k, i = k + 1 := ⟨i - 1, by omega⟩
    rw [computeZeroHashes_getD hash zeroDigest h2, Nat.add_sub_cancel,
      computeZeroHashes_getD hash zeroDigest (by omega)]
    rfl
  · intro i
    show (ZeroMerkleTree.new hash i).nodeStore.get 0 0 = _
    rw [new_get hash i 0 0 (Nat.zero_le i), Nat.sub_zero,
      computeZeroHashes_getD hash zeroDigest (le_refl i)]

/-- C4 witness at `h = 2` with `hWit`. -/
theorem C4_computeZeroHashes_spec_witness :
    (computeZeroHashes hWit 2).getD 1 zeroDigest =
      hWit ((computeZeroHashes hWit 2).getD 0 zeroDigest)
        ((computeZeroHashes hWit 2).getD 0 zeroDigest) ∧
    (ZeroMerkleTree.new hWit 2).getRoot = (computeZeroHashes hWit 2).getD 2 zeroDigest :=
  ⟨(C4_computeZeroHashes_spec hWit 2).2.2.1 1 (by decide) (by decide),
   (C4_computeZeroHashes_spec hWit 2).2.2.2 2⟩

/-- C5: calling `setLeaf(index, v)` twice in immediate succession (any
starting tree, in-range index) makes the second returned delta proof
satisfy `oldRoot = newRoot` and `oldValue = newValue = v`. -/
theorem C5_setLeaf_idempotent
    (hash : MerkleNodeValue → MerkleNodeValue → MerkleNodeValue)
    (t : ZeroMerkleTree) {m : Nat} (hm : m < 2 ^ t.height) (v : MerkleNodeValue) :
    ((t.setLeaf hash (m : Int) v).1.setLeaf hash (m : Int) v).2.oldRoot =
      ((t.setLeaf hash (m : Int) v).1.setLeaf hash (m : Int) v).2.newRoot ∧
    ((t.setLeaf hash (m : Int) v).1.setLeaf hash (m : Int) v).2.oldValue = v ∧
    ((t.setLeaf hash (m : Int) v).1.setLeaf hash (m : Int) v).2.newValue = v := by
  have hanc : ancestorIndex (m : Int) t.height = 0 := ancestorIndex_lt_pow_eq_zero hm
  have hh1 : (t.setLeaf hash (m : Int) v).1.height = t.height :=
    setLeaf_height hash t _ v
  simp only [setLeaf_proof]
  refine ⟨?_, ?_, trivial⟩
  · rw [setLeaf_get, if_pos rfl, hh1, setLeaf_siblings_stable]
  · rw [hh1, setLeaf_get_inrange hash t (m : Int) v hanc t.height (m : Int),
      if_pos ⟨le_refl _, by rw [Nat.sub_self]; rfl⟩, Nat.sub_self]
    rfl

/-- C5 witness: `setLeaf(0, 5)` twice on a fresh height-1 tree. -/
theorem C5_setLeaf_idempotent_witness :
    (0 < 2 ^ (ZeroMerkleTree.new hWit 1).height) ∧
    (((ZeroMerkleTree.new hWit 1).setLeaf hWit ((0 : Nat) : Int) 5).1.setLeaf hWit
        ((0 : Nat) : Int) 5).2.oldRoot =
      (((ZeroMerkleTree.new hWit 1).setLeaf hWit ((0 : Nat) : Int) 5).1.setLeaf hWit
        ((0 : Nat) : Int) 5).2.newRoot ∧
    (((ZeroMerkleTree.new hWit 1).setLeaf hWit ((0 : Nat) : Int) 5).1.setLeaf hWit
        ((0 : Nat) : Int) 5).2.oldValue = 5 :=
  ⟨by decide, (C5_setLeaf_idempotent hWit (ZeroMerkleTree.new hWit 1) (by decide) 5).1,
   (C5_setLeaf_idempotent hWit (ZeroMerkleTree.new hWit 1) (by decide) 5).2.1⟩

/-- C6: `verifyDeltaMerkleProof(d)` is true exactly when both the
implicit old proof and new proof (sharing `d`'s siblings and index)
verify; it is a total Bool-valued function, so `false` is an ordinary
return value, not an exception. -/
theorem C6_verifyDelta_iff
    (hash : MerkleNodeValue → MerkleNodeValue → MerkleNodeValue)
    (d : IDeltaMerkleProof) :
    verifyDeltaMerkleProof hash d = true ↔
      (verifyMerkleProof hash
          { root := d.oldRoot, siblings := d.siblings, index := d.index,
            value := d.oldValue } = true ∧
        verifyMerkleProof hash
          { root := d.newRoot, siblings := d.siblings, index := d.index,
            value := d.newValue } = true) := by
  rw [verifyDeltaMerkleProof, Bool.and_eq_true]

/-- C7 counterexample: an out-of-range `setLeaf` (index 2 on a height-1
tree, whose only valid indices are 0 and 1) does not abort, panic or
raise: it returns normally with a delta proof — which even verifies — so
the claim that contract violations fail loudly is false of this code. -/
theorem C7_counterexample :
    ((ZeroMerkleTree.new hWit 1).setLeaf hWit 2 5).2.index = 2 ∧
    ((ZeroMerkleTree.new hWit 1).setLeaf hWit 2 5).2.newValue = 5 ∧
    verifyDeltaMerkleProof hWit ((ZeroMerkleTree.new hWit 1).setLeaf hWit 2 5).2 =
      true := by decide

/-- C7 amended: the implementation performs no validation and never fails
loudly: `setLeaf` is total and returns normally for every index
(negative or beyond `2^height` included), and on a fresh tree the
returned proof even verifies; range checking is left to the caller. -/
theorem C7_amended_no_failure
    (hash : MerkleNodeValue → MerkleNodeValue → MerkleNodeValue) (h : Nat)
    (idx : Int) (v : MerkleNodeValue) :
    ((ZeroMerkleTree.new hash h).setLeaf hash idx v).2.index = idx ∧
    ((ZeroMerkleTree.new hash h).setLeaf hash idx v).2.newValue = v ∧
    verifyDeltaMerkleProof hash ((ZeroMerkleTree.new hash h).setLeaf hash idx v).2 =
      true := by
  refine ⟨by rw [setLeaf_proof], by rw [setLeaf_proof], ?_⟩
  rw [setLeaf_proof]
  simp only [verifyDeltaMerkleProof, verifyMerkleProof, Bool.and_eq_true, beq_iff_eq]
  constructor
  · have hfold := consistent_fold hash (new_consistent hash h) h idx (le_refl h)
    rw [show (ZeroMerkleTree.new hash h).height = h from rfl, hfold,
      new_get hash h 0 (ancestorIndex idx h) (Nat.zero_le h),
      new_get hash h 0 0 (Nat.zero_le h)]
  · trivial

/-- C8: an in-range `setLeaf` writes only the store entries on the leaf's
path — `(level, floor(index / 2^(h-level)))` for `level` from `h` down to
`0` — and leaves every other entry unchanged; the siblings it reads and
returns are the pre-call values and are unaffected by its own writes, and
no entry is ever removed. -/
theorem C8_setLeaf_frame
    (hash : MerkleNodeValue → MerkleNodeValue → MerkleNodeValue)
    (t : ZeroMerkleTree) {m : Nat} (hm : m < 2 ^ t.height) (v : MerkleNodeValue) :
    (∀ (L : Nat) (j : Int),
      ¬(L ≤ t.height ∧ j = Int.fdiv (m : Int) ((2 : Int) ^ (t.height - L))) →
      (t.setLeaf hash (m : Int) v).1.nodeStore.nodes (L, j) =
        t.nodeStore.nodes (L, j)) ∧
    (t.setLeaf hash (m : Int) v).2.siblings =
      storeSiblings t.nodeStore t.height (m : Int) ∧
    storeSiblings (t.setLeaf hash (m : Int) v).1.nodeStore t.height (m : Int) =
      storeSiblings t.nodeStore t.height (m : Int) ∧
    (∀ (L : Nat) (j : Int), (t.nodeStore.nodes (L, j)).isSome = true →
      ((t.setLeaf hash (m : Int) v).1.nodeStore.nodes (L, j)).isSome = true) := by
  have hanc : ancestorIndex (m : Int) t.height = 0 := ancestorIndex_lt_pow_eq_zero hm
  refine ⟨?_, ?_, setLeaf_siblings_stable hash t (m : Int) v, ?_⟩
  · intro L j hoff
    have hn1 : ((L : Nat), (j : Int)) ≠ ((0 : Nat), (0 : Int)) := by
      intro hc
      apply hoff
      have hL : L = 0 := congrArg Prod.fst hc
      have hj : j = 0 := congrArg Prod.snd hc
      subst hL
      refine ⟨Nat.zero_le _, ?_⟩
      rw [hj, Nat.sub_zero, ← ancestorIndex_eq_fdiv_pow, hanc]
    have hn2 : ¬(1 ≤ L ∧ L ≤ t.height ∧ j = ancestorIndex (m : Int) (t.height - L)) := by
      rintro ⟨_, hc2, hc3⟩
      exact hoff ⟨hc2, by rw [hc3, ancestorIndex_eq_fdiv_pow]⟩
    rw [setLeaf_store_nodes, if_neg hn1, if_neg hn2]
  · rw [setLeaf_proof]
  · intro L j hsome
    rw [setLeaf_store_nodes]
    by_cases h0 : ((L : Nat), (j : Int)) = ((0 : Nat), (0 : Int))
    · rw [if_pos h0]
      rfl
    · rw [if_neg h0]
      by_cases hc : 1 ≤ L ∧ L ≤ t.height ∧ j = ancestorIndex (m : Int) (t.height - L)
      · rw [if_pos hc]
        rfl
      · rw [if_neg hc]
        exact hsome

/-- C8 witness on a fresh height-2 tree, `setLeaf(1, 9)`: the off-path
entry `(2, 0)` is untouched and the returned siblings are the pre-call
stored siblings. -/
theorem C8_setLeaf_frame_witness :
    (1 < 2 ^ (ZeroMerkleTree.new hWit 2).height) ∧
    ¬((2 : Nat) ≤ (ZeroMerkleTree.new hWit 2).height ∧
      (0 : Int) = Int.fdiv ((1 : Nat) : Int)
        ((2 : Int) ^ ((ZeroMerkleTree.new hWit 2).height - 2))) ∧
    ((ZeroMerkleTree.new hWit 2).setLeaf hWit ((1 : Nat) : Int) 9).1.nodeStore.nodes
        (2, 0) = (ZeroMerkleTree.new hWit 2).nodeStore.nodes (2, 0) ∧
    ((ZeroMerkleTree.new hWit 2).setLeaf hWit ((1 : Nat) : Int) 9).2.siblings =
      storeSiblings (ZeroMerkleTree.new hWit 2).nodeStore
        (ZeroMerkleTree.new hWit 2).height ((1 : Nat) : Int) :=
  ⟨by decide, by decide,
   (C8_setLeaf_frame hWit (ZeroMerkleTree.new hWit 2) (by decide) 9).1 2 0 (by decide),
   (C8_setLeaf_frame hWit (ZeroMerkleTree.new hWit 2) (by decide) 9).2.1⟩

/-- C9: `computeMerkleRootFromProof` is a total, deterministic pure
function of its inputs: for every siblings list (any length) and every
index (any integer, negative included) it returns the last node of the
merkle path it folds, and that path always has exactly
`siblings.length + 1` entries. -/
theorem C9_computeMerkleRootFromProof_total
    (hash : MerkleNodeValue → MerkleNodeValue → MerkleNodeValue)
    (siblings : List MerkleNodeValue) (index : Int) (value : MerkleNodeValue) :
    computeMerkleRootFromProof hash siblings index value =
      (computeMerklePathFromProof hash siblings index value).getD siblings.length
        zeroDigest ∧
    (computeMerklePathFromProof hash siblings index value).length =
      siblings.length + 1 :=
  ⟨computeMerkleRootFromProof_eq_getLast hash siblings index value zeroDigest,
   computeMerklePathFromProof_length hash siblings index value⟩

/-- C10 counterexample: at height 0 the freshly-constructed tree's
sentinel `lastProof` (index `-1`) does verify (`root = value = Z[0]` and
the fold over the empty siblings list is the identity), so the claim that
the verification invariant never holds before the first append is false. -/
theorem C10_counterexample :
    (AppendOnlyMerkleTree.new hWit 0).lastProof.index = -1 ∧
    verifyMerkleProof hWit (AppendOnlyMerkleTree.new hWit 0).lastProof = true := by
  decide

/-- C10 amended: after `n ≥ 1` appends on a fresh `AppendOnlyMerkleTree(h)`
the stored `lastProof` verifies, its index is `n - 1`, its root is the
`n`-th returned proof's `newRoot` and its value is the `n`-th appended
leaf; before any append the sentinel proof (index `-1`) may or may not
verify depending on `h` and the hash (at `h = 0` it does). -/
theorem C10_amended_lastProof_invariant
    (hash : MerkleNodeValue → MerkleNodeValue → MerkleNodeValue) (h : Nat)
    (vs : List MerkleNodeValue) (hne : vs ≠ []) :
    verifyMerkleProof hash
      (appendSeq hash (AppendOnlyMerkleTree.new hash h) vs).1.lastProof = true ∧
    (appendSeq hash (AppendOnlyMerkleTree.new hash h) vs).1.lastProof.index =
      (vs.length : Int) - 1 ∧
    (appendSeq hash (AppendOnlyMerkleTree.new hash h) vs).1.lastProof.root =
      ((appendSeq hash (AppendOnlyMerkleTree.new hash h) vs).2.getD
        (vs.length - 1) default).newRoot ∧
    (appendSeq hash (AppendOnlyMerkleTree.new hash h) vs).1.lastProof.value =
      vs.getD (vs.length - 1) zeroDigest := by
  obtain ⟨h1, h2, h3⟩ := appendSeq_last hash vs (AppendOnlyMerkleTree.new hash h) hne
  refine ⟨h1, ?_, h2, h3⟩
  rw [appendSeq_index]
  show (-1 : Int) + (vs.length : Int) = (vs.length : Int) - 1
  ring

/-- C10 witness: two appends at height 2. -/
theorem C10_amended_lastProof_invariant_witness :
    ([5, 6] : List MerkleNodeValue) ≠ [] ∧
    verifyMerkleProof hWit
      (appendSeq hWit (AppendOnlyMerkleTree.new hWit 2) [5, 6]).1.lastProof = true ∧
    (appendSeq hWit (AppendOnlyMerkleTree.new hWit 2) [5, 6]).1.lastProof.index =
      (([5, 6] : List MerkleNodeValue).length : Int) - 1 :=
  ⟨by decide, (C10_amended_lastProof_invariant hWit 2 [5, 6] (by decide)).1,
   (C10_amended_lastProof_invariant hWit 2 [5, 6] (by decide)).2.1⟩
